import Mathlib

/-!
Verification development for the DDNS firewall synchronizer
(`src/main.rs`, "DDNS Firewall Synchronizer v2.2.1").

The Rust program is shallowly embedded:

* strings are modelled as `List Char`;
* `Ipv4Addr` is four octets (`Fin 256`), a port is a `u16` (`Fin 65536`);
* `HashSet<(Ipv4Addr, u16)>` is a `Finset RuleKey`; where the program
  iterates over a hash set, the iteration order is an explicit `List`;
* the external world (DNS answers, `iptables -C` checks, the outcome of
  each `iptables -I`/`-D` invocation) is an `Env` of oracle functions,
  with add outcomes indexed by the per-key invocation count;
* each firewall-mutating call is recorded in a trace (`FwEvent`), each
  `Cache::save` is recorded in a list of saved cache snapshots, and the
  live firewall rule set is threaded as a `Finset` updated by successful
  adds and deletes.
-/

-- ===========================================================================
-- Basic data model
-- ===========================================================================

/-- Model of `std::net::Ipv4Addr`: four octets. -/
structure Ipv4 where
  a : Fin 256
  b : Fin 256
  c : Fin 256
  d : Fin 256
deriving DecidableEq

/-- A managed rule key `(Ipv4Addr, u16)`. -/
abbrev RuleKey := Ipv4 × Fin 65536

/-- Model of `enum CacheState { Idle, Adding, Deleting }`. -/
inductive CacheState where
  | Idle
  | Adding
  | Deleting
deriving DecidableEq

/-- Model of `struct Cache { state, rules, pending }`. -/
structure Cache where
  state : CacheState
  rules : Finset RuleKey
  pending : Option RuleKey
deriving DecidableEq

/-- `MAX_ENTRIES` from the source. -/
def MAX_ENTRIES : Nat := 100

/-- `MAX_RULES` from the source. -/
def MAX_RULES : Nat := 100

/-- `MAX_LOOP_ITERATIONS` from the source. -/
def MAX_LOOP_ITERATIONS : Nat := 200

-- ===========================================================================
-- Character/list utilities modelling Rust `str` primitives
-- ===========================================================================

/-- Does `p` match the beginning of `s`? (model of `str::starts_with`). -/
def leadMatch : List Char → List Char → Bool
  | [], _ => true
  | _ :: _, [] => false
  | a :: p, b :: s => a == b && leadMatch p s

/-- Does `p` match the end of `s`? (model of `str::ends_with`). -/
def tailMatch (p s : List Char) : Bool :=
  leadMatch p.reverse s.reverse

/-- Model of `str::strip_prefix`. -/
def stripLead (p s : List Char) : Option (List Char) :=
  if leadMatch p s then some (s.drop p.length) else none

/-- Does `p` occur as a contiguous run inside `s`? (model of `str::contains`). -/
def occursIn (p s : List Char) : Bool :=
  (List.range (s.length + 1)).any fun i => leadMatch p (s.drop i)

/-- Model of `str::trim` (ASCII whitespace). -/
def trimL (s : List Char) : List Char :=
  ((s.dropWhile Char.isWhitespace).reverse.dropWhile Char.isWhitespace).reverse

/-- Model of `str::split(sep)`: `n` separators yield `n+1` parts. -/
def splitOnC (sep : Char) : List Char → List (List Char)
  | [] => [[]]
  | a :: rest =>
    if a = sep then [] :: splitOnC sep rest
    else
      match splitOnC sep rest with
      | [] => [[a]]
      | h :: t => (a :: h) :: t

/-- Model of joining strings with a separator (`Vec::join`). -/
def joinC (sep : Char) : List (List Char) → List Char
  | [] => []
  | [x] => x
  | x :: y :: t => x ++ sep :: joinC sep (y :: t)

/-- Split `s` at its last colon (`str::rfind(':')` followed by slicing):
returns the part before and the part after the last `:`. -/
def lastColonSplit : List Char → Option (List Char × List Char)
  | [] => none
  | a :: rest =>
    match lastColonSplit rest with
    | some (pre, post) => some (a :: pre, post)
    | none => if a = ':' then some ([], rest) else none

/-- Model of `str::split_whitespace`: maximal non-whitespace runs. -/
def splitWsGo : List Char → List Char → List (List Char)
  | [], cur => if cur.isEmpty then [] else [cur.reverse]
  | c :: rest, cur =>
    if c.isWhitespace then
      if cur.isEmpty then splitWsGo rest [] else cur.reverse :: splitWsGo rest []
    else splitWsGo rest (c :: cur)

/-- Model of `str::split_whitespace`. -/
def splitWs (s : List Char) : List (List Char) :=
  splitWsGo s []

/-- Model of `str::trim_end_matches("/32")`: repeatedly remove the suffix. -/
def trimEnd32Go : Nat → List Char → List Char
  | 0, s => s
  | fuel + 1, s =>
    if tailMatch ['/', '3', '2'] s then trimEnd32Go fuel (s.take (s.length - 3)) else s

/-- Model of `str::trim_end_matches("/32")`. -/
def trimEnd32 (s : List Char) : List Char :=
  trimEnd32Go s.length s

/-- Parts of a line split that were followed by a newline lose one trailing
`'\r'`. -/
def stripCrBody (ps : List (List Char)) : List (List Char) :=
  ps.dropLast.map fun l => if l.getLast? = some '\r' then l.dropLast else l

/-- Model of Rust `lines()`: split on `'\n'`; every part that was followed by
a newline loses one trailing `'\r'`; a trailing empty final part (the text
ended with a newline) is dropped. -/
def rustLines (s : List Char) : List (List Char) :=
  match (splitOnC '\n' s).getLast? with
  | some [] => stripCrBody (splitOnC '\n' s)
  | some l => stripCrBody (splitOnC '\n' s) ++ [l]
  | none => stripCrBody (splitOnC '\n' s)

-- ===========================================================================
-- Decimal formatting and parsing (Rust `Display`/`parse` for integers)
-- ===========================================================================

/-- Decimal digits, most significant first, with explicit fuel (the fuel
keeps the recursion structural so that values compute by reduction). -/
def toDecGo : Nat → Nat → List Char
  | 0, _ => []
  | fuel + 1, n =>
    if n < 10 then [Nat.digitChar n]
    else toDecGo fuel (n / 10) ++ [Nat.digitChar (n % 10)]

/-- Decimal digits of `n`, most significant first (Rust integer `Display`). -/
def toDec (n : Nat) : List Char :=
  toDecGo (n + 1) n

/-- Accumulated value of a digit string. -/
def decVal (s : List Char) : Nat :=
  s.foldl (fun a c => a * 10 + (c.toNat - 48)) 0

/-- Strip one leading `'+'` (Rust integer `FromStr` accepts it). -/
def plusStrip (s : List Char) : List Char :=
  if s.headD ' ' = '+' then s.tail else s

/-- Model of `str::parse::<u16>()`. -/
def parseU16 (s : List Char) : Option (Fin 65536) :=
  if h : plusStrip s ≠ [] ∧ (plusStrip s).all Char.isDigit ∧ decVal (plusStrip s) < 65536 then
    some ⟨decVal (plusStrip s), h.2.2⟩
  else none

/-- Model of parsing one IPv4 octet (Rust rejects empty strings, non-digits,
leading zeros and values above 255). -/
def parseOctet (s : List Char) : Option (Fin 256) :=
  if h : s ≠ [] ∧ s.all Char.isDigit ∧ (s.length = 1 ∨ s.headD ' ' ≠ '0') ∧ decVal s < 256 then
    some ⟨decVal s, h.2.2.2⟩
  else none

/-- Model of `str::parse::<Ipv4Addr>()`: exactly four octets. -/
def parseIpv4 (s : List Char) : Option Ipv4 :=
  match splitOnC '.' s with
  | [pa, pb, pc, pd] =>
    match parseOctet pa, parseOctet pb, parseOctet pc, parseOctet pd with
    | some a, some b, some c, some d => some ⟨a, b, c, d⟩
    | _, _, _, _ => none
  | _ => none

/-- Model of `parse_ip_port` from the source. -/
def parse_ip_port (s : List Char) : Option RuleKey :=
  if trimL s = [] then none
  else
    match lastColonSplit (trimL s) with
    | none => none
    | some (ipStr, portStr) =>
      match parseIpv4 ipStr, parseU16 portStr with
      | some ip, some p => some (ip, p)
      | _, _ => none

-- ===========================================================================
-- Cache (crash-recovery persistent state)
-- ===========================================================================

/-- `Cache::new`. -/
def Cache.new : Cache :=
  { state := CacheState.Idle, rules := ∅, pending := none }

/-- `Cache::set_idle` (pure part; the accompanying save is recorded by the
synchronization model). -/
def Cache.set_idle (c : Cache) : Cache :=
  { c with state := CacheState.Idle, pending := none }

/-- `Cache::set_adding`. -/
def Cache.set_adding (c : Cache) (k : RuleKey) : Cache :=
  { c with state := CacheState.Adding, pending := some k }

/-- `Cache::set_deleting`. -/
def Cache.set_deleting (c : Cache) (k : RuleKey) : Cache :=
  { c with state := CacheState.Deleting, pending := some k }

/-- `Cache::add_rule`: insert only below the `MAX_RULES` cap, then go idle. -/
def Cache.add_rule (c : Cache) (k : RuleKey) : Cache :=
  { state := CacheState.Idle,
    rules := if c.rules.card < MAX_RULES then insert k c.rules else c.rules,
    pending := none }

/-- `Cache::remove_rule`. -/
def Cache.remove_rule (c : Cache) (k : RuleKey) : Cache :=
  { state := CacheState.Idle, rules := c.rules.erase k, pending := none }

/-- The literal `"STATE:"`. -/
def statePre : List Char := ['S', 'T', 'A', 'T', 'E', ':']

/-- The literal `"RULES:"`. -/
def rulesPre : List Char := ['R', 'U', 'L', 'E', 'S', ':']

/-- The literal `"PENDING:"`. -/
def pendingPre : List Char := ['P', 'E', 'N', 'D', 'I', 'N', 'G', ':']

/-- The literal `"ADDING"`. -/
def addingTag : List Char := ['A', 'D', 'D', 'I', 'N', 'G']

/-- The literal `"DELETING"`. -/
def deletingTag : List Char := ['D', 'E', 'L', 'E', 'T', 'I', 'N', 'G']

/-- The literal `"IDLE"`. -/
def idleTag : List Char := ['I', 'D', 'L', 'E']

/-- State tag written by `Cache::save`. -/
def stateTag : CacheState → List Char
  | CacheState.Idle => idleTag
  | CacheState.Adding => addingTag
  | CacheState.Deleting => deletingTag

/-- Numeric code of a rule key, used to fix a canonical iteration order for
the (order-free) `HashSet` of rules. -/
def keyCode (k : RuleKey) : Nat :=
  (((k.1.a.val * 256 + k.1.b.val) * 256 + k.1.c.val) * 256 + k.1.d.val) * 65536 + k.2.val

/-- Canonical ordering of rule keys. -/
def keyLE (x y : RuleKey) : Prop := keyCode x ≤ keyCode y

instance : DecidableRel keyLE := fun x y => Nat.decLe (keyCode x) (keyCode y)

instance : IsTrans RuleKey keyLE := ⟨fun _ _ _ h h' => Nat.le_trans h h'⟩

instance : IsTotal RuleKey keyLE := ⟨fun x y => Nat.le_total (keyCode x) (keyCode y)⟩

instance : IsAntisymm RuleKey keyLE :=
  ⟨fun x y h h' => by
    have hc : keyCode x = keyCode y := Nat.le_antisymm h h'
    obtain ⟨⟨⟨xa, hxa⟩, ⟨xb, hxb⟩, ⟨xc, hxc⟩, ⟨xd, hxd⟩⟩, ⟨xp, hxp⟩⟩ := x
    obtain ⟨⟨⟨ya, hya⟩, ⟨yb, hyb⟩, ⟨yc, hyc⟩, ⟨yd, hyd⟩⟩, ⟨yp, hyp⟩⟩ := y
    simp only [keyCode] at hc
    have : xa = ya ∧ xb = yb ∧ xc = yc ∧ xd = yd ∧ xp = yp := by omega
    simp_all⟩

/-- The (model) iteration order of a rule set: `HashSet` iteration order is
unspecified, so a canonical enumeration is fixed. -/
def rulesList (s : Finset RuleKey) : List RuleKey :=
  s.sort keyLE

/-- `format!("{}", ip)` for an address. -/
def fmtIp (ip : Ipv4) : List Char :=
  toDec ip.a.val ++ '.' :: toDec ip.b.val ++ '.' :: toDec ip.c.val ++ '.' :: toDec ip.d.val

/-- `format!("{}:{}", ip, port)` for one rule key. -/
def fmtKey (k : RuleKey) : List Char :=
  fmtIp k.1 ++ ':' :: toDec k.2.val

/-- The text written by `Cache::save`: three newline-terminated lines
`STATE:` / `RULES:` / `PENDING:`, rules limited to `MAX_RULES`. -/
def saveContent (c : Cache) : List Char :=
  (statePre ++ stateTag c.state) ++ '\n' ::
    ((rulesPre ++ joinC ',' (((rulesList c.rules).take MAX_RULES).map fmtKey)) ++ '\n' ::
      ((pendingPre ++ (match c.pending with | some k => fmtKey k | none => [])) ++ ['\n']))

/-- Parse the fragments of one `RULES:` line, keeping at most `MAX_RULES`
successfully parsed keys (`rule_count` in the source counts parses). -/
def parseRuleFrags : Nat → List (List Char) → List RuleKey
  | _, [] => []
  | cnt, f :: rest =>
    if cnt ≥ MAX_RULES then []
    else
      match parse_ip_port f with
      | some k => k :: parseRuleFrags (cnt + 1) rest
      | none => parseRuleFrags cnt rest

/-- Interpretation of a `STATE:` value: unknown tags collapse to `Idle`. -/
def tagState (s : List Char) : CacheState :=
  if s = addingTag then CacheState.Adding
  else if s = deletingTag then CacheState.Deleting
  else CacheState.Idle

/-- Process one line of the cache file (`Cache::load` loop body). The
source's `strip_prefix` chain is written as a starts-with test followed by
dropping the prefix. -/
def loadLine (c : Cache) (l : List Char) : Cache :=
  if leadMatch statePre l then { c with state := tagState (l.drop statePre.length) }
  else if leadMatch rulesPre l then
    { c with
      rules := c.rules ∪ (parseRuleFrags 0 (splitOnC ',' (l.drop rulesPre.length))).toFinset }
  else if leadMatch pendingPre l then
    { c with pending := parse_ip_port (l.drop pendingPre.length) }
  else c

/-- `Cache::load` on a list of lines: at most the first 10 lines are read. -/
def loadLines (ls : List (List Char)) : Cache :=
  (ls.take 10).foldl loadLine Cache.new

/-- `Cache::load` on raw file content. -/
def loadContent (s : List Char) : Cache :=
  loadLines (rustLines s)

-- ===========================================================================
-- Configuration parsing (`parse_config`)
-- ===========================================================================

/-- One config entry `hostname:port`. -/
structure DdnsEntry where
  hostname : List Char
  port : Fin 65536
deriving DecidableEq

/-- Warnings the engine prints to the error stream while parsing bounded
input (`eprintln!` calls in `parse_config` / `get_existing_rules`). -/
inductive Warn where
  | configTooLarge
  | maxEntries
  | tooManyRules
deriving DecidableEq

/-- Parse one non-comment config line (`parse_config` loop body after the
blank/comment skip): split at the last colon, trim both sides, require a
non-empty hostname and a positive port. -/
def parseConfigLine (l : List Char) : Option DdnsEntry :=
  if trimL l = [] then none
  else if (trimL l).headD ' ' = '#' then none
  else
    match lastColonSplit (trimL l) with
    | none => none
    | some (hn, ps) =>
      match parseU16 (trimL ps) with
      | some p => if trimL hn ≠ [] ∧ 0 < p.val then some ⟨trimL hn, p⟩ else none
      | none => none

/-- The `parse_config` loop: `iter` counts processed lines (cap
`MAX_LOOP_ITERATIONS`, warning on overflow), `acc` is capped at
`MAX_ENTRIES` (warning when a further line exists). -/
def parseConfigGo (iter : Nat) (acc : List DdnsEntry) :
    List (List Char) → List DdnsEntry × List Warn
  | [] => (acc, [])
  | l :: rest =>
    if iter + 1 > MAX_LOOP_ITERATIONS then (acc, [Warn.configTooLarge])
    else if acc.length ≥ MAX_ENTRIES then (acc, [Warn.maxEntries])
    else
      match parseConfigLine l with
      | some e => parseConfigGo (iter + 1) (acc ++ [e]) rest
      | none => parseConfigGo (iter + 1) acc rest

/-- `parse_config` on the lines of the config file, returning the entries
and the truncation warnings. -/
def parse_config (lines : List (List Char)) : List DdnsEntry × List Warn :=
  parseConfigGo 0 [] lines

-- ===========================================================================
-- Live-rule listing (`get_existing_rules`)
-- ===========================================================================

/-- The ownership marker `IPTABLES_COMMENT = "DDNS-ACCESS"`. -/
def iptablesComment : List Char := "DDNS-ACCESS".data

/-- Scan the whitespace-separated tokens of one `iptables -S` line (at most
50 token positions): every `-s` occurrence rewrites the address (stripping
trailing `/32`), every `--dport` occurrence rewrites the port. -/
def scanRuleLine (l : List Char) : Option RuleKey :=
  let parts := splitWs l
  let res :=
    (List.range (min parts.length 50)).foldl
      (fun (st : Option Ipv4 × Option (Fin 65536)) i =>
        let st1 :=
          if parts.getD i [] = ['-', 's'] ∧ i + 1 < parts.length then
            (parseIpv4 (trimEnd32 (parts.getD (i + 1) [])), st.2)
          else st
        if parts.getD i [] = ['-', '-', 'd', 'p', 'o', 'r', 't'] ∧ i + 1 < parts.length then
          (st1.1, parseU16 (parts.getD (i + 1) []))
        else st1)
      (none, none)
  match res with
  | (some ip, some p) => some (ip, p)
  | _ => none

/-- The `get_existing_rules` loop: line cap `MAX_LOOP_ITERATIONS` with a
warning, lines without the ownership marker skipped, a silent break once
`MAX_RULES` keys are held, set-insertion modelled as dedup-append. -/
def getRulesGo (iter : Nat) (acc : List RuleKey) :
    List (List Char) → List RuleKey × List Warn
  | [] => (acc, [])
  | l :: rest =>
    if iter + 1 > MAX_LOOP_ITERATIONS then (acc, [Warn.tooManyRules])
    else if ¬ occursIn iptablesComment l then getRulesGo (iter + 1) acc rest
    else if acc.length ≥ MAX_RULES then (acc, [])
    else
      match scanRuleLine l with
      | some k => getRulesGo (iter + 1) (if k ∈ acc then acc else acc ++ [k]) rest
      | none => getRulesGo (iter + 1) acc rest

/-- `get_existing_rules` on the lines of `iptables -S INPUT` output. -/
def get_existing_rules (lines : List (List Char)) : List RuleKey × List Warn :=
  getRulesGo 0 [] lines

-- ===========================================================================
-- Environment and firewall trace
-- ===========================================================================

/-- One firewall-mutating call, with the key and the tool's exit status. -/
inductive FwEvent where
  | add (k : RuleKey) (ok : Bool)
  | del (k : RuleKey) (ok : Bool)
deriving DecidableEq

/-- Is this an `addRule` call? -/
def isAddE : FwEvent → Bool
  | FwEvent.add _ _ => true
  | FwEvent.del _ _ => false

/-- Is this a `deleteRule` call? -/
def isDelE : FwEvent → Bool
  | FwEvent.add _ _ => false
  | FwEvent.del _ _ => true

/-- Is this an `addRule` call for key `k`? -/
def isAddOf (k : RuleKey) : FwEvent → Bool
  | FwEvent.add k' _ => k' = k
  | FwEvent.del _ _ => false

/-- Number of `addRule` invocations for `k` recorded in a trace. -/
def countAdds (t : List FwEvent) (k : RuleKey) : Nat :=
  t.countP (isAddOf k)

/-- The external world: DNS answers (`resolve_dns_timeout`), the direct
`iptables -C` check (`rule_exists`), and the exit status of the `n`-th
`addRule` call for a key and of `deleteRule` calls. -/
structure Env where
  resolve : List Char → Option Ipv4
  ruleExists : RuleKey → Bool
  addOk : RuleKey → Nat → Bool
  delOk : RuleKey → Bool

-- ===========================================================================
-- Crash recovery (`recover_from_crash`)
-- ===========================================================================

/-- `recover_from_crash`: returns the cache afterwards, the firewall calls
made, and the cache snapshots saved. The recovery `addRule` is the first
add call for its key, hence index 0. -/
def recover_from_crash (env : Env) (c : Cache) : Cache × List FwEvent × List Cache :=
  match c.state with
  | CacheState.Idle => (c, [], [])
  | CacheState.Adding =>
    match c.pending with
    | some k =>
      if env.ruleExists k then (Cache.add_rule c k, [], [Cache.add_rule c k])
      else if env.addOk k 0 then
        (Cache.add_rule c k, [FwEvent.add k true], [Cache.add_rule c k])
      else (Cache.set_idle c, [FwEvent.add k false], [Cache.set_idle c])
    | none => (Cache.set_idle c, [], [Cache.set_idle c])
  | CacheState.Deleting => (Cache.set_idle c, [], [Cache.set_idle c])

/-- The guard around recovery in `sync_firewall`: recover only when the
loaded state is not idle. -/
def recoverMaybe (env : Env) (c : Cache) : Cache × List FwEvent × List Cache :=
  if c.state ≠ CacheState.Idle then recover_from_crash env c else (c, [], [])

-- ===========================================================================
-- The reconciliation phases of `sync_firewall`
-- ===========================================================================

/-- State threaded through the reconciliation phases: the in-memory cache,
the desired rule set, the firewall-call trace, the live firewall rule set,
and all cache snapshots saved so far. -/
structure SyncSt where
  cache : Cache
  desired : Finset RuleKey
  trace : List FwEvent
  live : Finset RuleKey
  saves : List Cache

/-- Phase 1 (resolve) loop body: a DNS failure copies every existing rule of
the entry's port into `desired`; a success inserts the resolved key into
`desired` and queues it unless it is already in the listing or the direct
`iptables -C` check confirms it. -/
def resolveStep (env : Env) (ex : Finset RuleKey) (acc : Finset RuleKey × List RuleKey)
    (e : DdnsEntry) : Finset RuleKey × List RuleKey :=
  match env.resolve e.hostname with
  | none => (acc.1 ∪ ex.filter (fun r => r.2 = e.port), acc.2)
  | some ip =>
    let k : RuleKey := (ip, e.port)
    ( insert k acc.1,
      if k ∈ ex then acc.2
      else if env.ruleExists k then acc.2
      else acc.2 ++ [k] )

/-- Phase 1 over the entries (loop cap `MAX_LOOP_ITERATIONS`): returns the
desired set and the queue of keys to add. -/
def resolvePhase (env : Env) (ex : Finset RuleKey) (entries : List DdnsEntry) :
    Finset RuleKey × List RuleKey :=
  (entries.take MAX_LOOP_ITERATIONS).foldl (resolveStep env ex) (∅, [])

/-- Phase 2 (add) loop body, flattened from the source control flow:
`set_adding` is saved, then `addRule` is invoked (retried once on failure);
success commits via `add_rule`; exhausted failure saves `set_idle` and
copies every existing rule of the port into `desired`. -/
def addStep (env : Env) (ex : Finset RuleKey) (s : SyncSt) (k : RuleKey) : SyncSt :=
  let c1 := Cache.set_adding s.cache k
  let n := countAdds s.trace k
  if env.addOk k n then
    { cache := Cache.add_rule c1 k,
      desired := s.desired,
      trace := s.trace ++ [FwEvent.add k true],
      live := insert k s.live,
      saves := s.saves ++ [c1, Cache.add_rule c1 k] }
  else if env.addOk k (n + 1) then
    { cache := Cache.add_rule c1 k,
      desired := s.desired,
      trace := s.trace ++ [FwEvent.add k false, FwEvent.add k true],
      live := insert k s.live,
      saves := s.saves ++ [c1, Cache.add_rule c1 k] }
  else
    { cache := Cache.set_idle c1,
      desired := s.desired ∪ ex.filter (fun r => r.2 = k.2),
      trace := s.trace ++ [FwEvent.add k false, FwEvent.add k false],
      live := s.live,
      saves := s.saves ++ [c1, Cache.set_idle c1] }

/-- Phase 2 over the queue (loop cap `MAX_LOOP_ITERATIONS`). -/
def addPhase (env : Env) (ex : Finset RuleKey) (s : SyncSt) (queue : List RuleKey) : SyncSt :=
  (queue.take MAX_LOOP_ITERATIONS).foldl (addStep env ex) s

/-- Phase 3 (delete) loop body: rules still in `desired` are skipped; others
get `set_deleting`, a `deleteRule` call, and on success `remove_rule`, on
failure `set_idle` (the rule stays). -/
def delStep (env : Env) (s : SyncSt) (k : RuleKey) : SyncSt :=
  if k ∈ s.desired then s
  else
    let c1 := Cache.set_deleting s.cache k
    if env.delOk k then
      { cache := Cache.remove_rule c1 k,
        desired := s.desired,
        trace := s.trace ++ [FwEvent.del k true],
        live := s.live.erase k,
        saves := s.saves ++ [c1, Cache.remove_rule c1 k] }
    else
      { cache := Cache.set_idle c1,
        desired := s.desired,
        trace := s.trace ++ [FwEvent.del k false],
        live := s.live,
        saves := s.saves ++ [c1, Cache.set_idle c1] }

/-- Phase 3 over the listing (loop cap `MAX_LOOP_ITERATIONS`, counting also
the skipped rules). -/
def delPhase (env : Env) (s : SyncSt) (listing : List RuleKey) : SyncSt :=
  (listing.take MAX_LOOP_ITERATIONS).foldl (delStep env) s

/-- State at the end of phase 1: `cache.rules` has been overwritten with
the listing and saved, the desired set has been computed, the trace and
saves so far are those of recovery plus that save, and the live set is the
listing. -/
def resolveSt (env : Env) (c0 : Cache) (recTrace : List FwEvent) (recSaves : List Cache)
    (entries : List DdnsEntry) (listing : List RuleKey) : SyncSt :=
  { cache := { c0 with rules := listing.toFinset },
    desired := (resolvePhase env listing.toFinset entries).1,
    trace := recTrace,
    live := listing.toFinset,
    saves := recSaves ++ [{ c0 with rules := listing.toFinset }] }

/-- State at the end of phase 2 (the add phase over the queue). -/
def addSt (env : Env) (c0 : Cache) (recTrace : List FwEvent) (recSaves : List Cache)
    (entries : List DdnsEntry) (listing : List RuleKey) : SyncSt :=
  addPhase env listing.toFinset (resolveSt env c0 recTrace recSaves entries listing)
    (resolvePhase env listing.toFinset entries).2

/-- State at the end of phase 3 (the delete phase over the listing). -/
def delSt (env : Env) (c0 : Cache) (recTrace : List FwEvent) (recSaves : List Cache)
    (entries : List DdnsEntry) (listing : List RuleKey) : SyncSt :=
  delPhase env (addSt env c0 recTrace recSaves entries listing) listing

/-- The reconciliation part of `sync_firewall` after recovery and config
parsing: overwrite `cache.rules` with the listing and save, run the three
phases, then save a final `set_idle`. -/
def syncReconcile (env : Env) (c0 : Cache) (recTrace : List FwEvent)
    (recSaves : List Cache) (entries : List DdnsEntry) (listing : List RuleKey) : SyncSt :=
  { cache := Cache.set_idle (delSt env c0 recTrace recSaves entries listing).cache,
    desired := (delSt env c0 recTrace recSaves entries listing).desired,
    trace := (delSt env c0 recTrace recSaves entries listing).trace,
    live := (delSt env c0 recTrace recSaves entries listing).live,
    saves := (delSt env c0 recTrace recSaves entries listing).saves ++
      [Cache.set_idle (delSt env c0 recTrace recSaves entries listing).cache] }

/-- Observable outcome of one `sync_firewall` run (after the lock and the
iptables binary are available): the firewall calls, the saved snapshots,
the final live and desired sets, the in-memory cache at the end, and
whether the live listing was queried at all. -/
structure RunOutcome where
  trace : List FwEvent
  saves : List Cache
  live : Finset RuleKey
  desired : Finset RuleKey
  cacheEnd : Cache
  listed : Bool
deriving DecidableEq

/-- The reconciliation state of a full run: recovery results feed the
reconcile phases. -/
def reconcileOf (env : Env) (c0 : Cache) (listing : List RuleKey)
    (configLines : List (List Char)) : SyncSt :=
  syncReconcile env (recoverMaybe env c0).1 (recoverMaybe env c0).2.1
    (recoverMaybe env c0).2.2 (parse_config configLines).1 listing

/-- One full `sync_firewall` run body: load (`c0` is the loaded cache),
recover when not idle, parse the config; with no entries return right
there; otherwise list the live rules (the `listing` parameter, in the
listing's iteration order) and reconcile. -/
def runSync (env : Env) (c0 : Cache) (listing : List RuleKey)
    (configLines : List (List Char)) : RunOutcome :=
  if (parse_config configLines).1 = [] then
    { trace := (recoverMaybe env c0).2.1, saves := (recoverMaybe env c0).2.2,
      live := listing.toFinset, desired := ∅, cacheEnd := (recoverMaybe env c0).1,
      listed := false }
  else
    { trace := (reconcileOf env c0 listing configLines).trace,
      saves := (reconcileOf env c0 listing configLines).saves,
      live := (reconcileOf env c0 listing configLines).live,
      desired := (reconcileOf env c0 listing configLines).desired,
      cacheEnd := (reconcileOf env c0 listing configLines).cache,
      listed := true }

-- ===========================================================================
-- Process-level model (`main` on the installed execution path)
-- ===========================================================================

/-- Result of the process: exit status and the sync outcome, if a sync ran. -/
structure MainResult where
  exit : Nat
  ran : Option RunOutcome
deriving DecidableEq

/-- `main` on the installed execution path (`is_installed() &&
is_running_installed()`): a missing privilege exits with status 1 via
`exit_err` before anything else; `sync_firewall` returns early (and the
process then exits 0) when the lock cannot be acquired or no iptables
binary is found; otherwise the run executes and the process exits 0
whatever the per-rule outcomes were. -/
def mainInstalled (env : Env) (isRoot lockOk iptablesOk : Bool) (c0 : Cache)
    (listing : List RuleKey) (configLines : List (List Char)) : MainResult :=
  if ¬ isRoot then { exit := 1, ran := none }
  else if ¬ lockOk then { exit := 0, ran := none }
  else if ¬ iptablesOk then { exit := 0, ran := none }
  else { exit := 0, ran := some (runSync env c0 listing configLines) }

/-- The structural invariant claimed for the persistent state: a pending
key is recorded exactly when the operation state is not idle. -/
def pendingIffBusy (c : Cache) : Prop :=
  c.pending.isSome = true ↔ c.state ≠ CacheState.Idle

-- ===========================================================================
-- Phase-1 selector (characterization helper)
-- ===========================================================================

/-- The queueing decision phase 1 takes for one entry: the key is queued
exactly when resolution succeeds, the key is not in the listing, and the
direct existence check is negative. -/
def queueSel (env : Env) (ex : Finset RuleKey) (e : DdnsEntry) : Option RuleKey :=
  match env.resolve e.hostname with
  | none => none
  | some ip =>
    if (ip, e.port) ∈ ex then none
    else if env.ruleExists (ip, e.port) then none
    else some (ip, e.port)

-- ===========================================================================
-- Concrete values used by witnesses and counterexamples
-- ===========================================================================

/-- The address 10.0.0.5. -/
def ip5 : Ipv4 := ⟨⟨10, by omega⟩, ⟨0, by omega⟩, ⟨0, by omega⟩, ⟨5, by omega⟩⟩

/-- The address 10.0.0.6. -/
def ip6 : Ipv4 := ⟨⟨10, by omega⟩, ⟨0, by omega⟩, ⟨0, by omega⟩, ⟨6, by omega⟩⟩

/-- Port 22. -/
def port22 : Fin 65536 := ⟨22, by omega⟩

/-- Port 80. -/
def port80 : Fin 65536 := ⟨80, by omega⟩

/-- The key 10.0.0.5:22. -/
def key5_22 : RuleKey := (ip5, port22)

/-- The key 10.0.0.6:22. -/
def key6_22 : RuleKey := (ip6, port22)

/-- The key 10.0.0.6:80. -/
def key6_80 : RuleKey := (ip6, port80)

/-- The config line `h:22`. -/
def lineH22 : List Char := "h:22".data

/-- A one-entry configuration. -/
def cfgH22 : List (List Char) := [lineH22]

/-- Environment: every hostname resolves to 10.0.0.5, the direct existence
check is negative, every firewall mutation succeeds. -/
def envAllOk : Env :=
  { resolve := fun _ => some ip5, ruleExists := fun _ => false,
    addOk := fun _ _ => true, delOk := fun _ => true }

/-- Environment: every hostname resolves to 10.0.0.5, the direct existence
check is negative, every `addRule` fails, every `deleteRule` succeeds. -/
def envAllFail : Env :=
  { resolve := fun _ => some ip5, ruleExists := fun _ => false,
    addOk := fun _ _ => false, delOk := fun _ => true }

/-- Environment: DNS resolution always fails. -/
def envNoDns : Env :=
  { resolve := fun _ => none, ruleExists := fun _ => false,
    addOk := fun _ _ => true, delOk := fun _ => true }

/-- Environment: the direct existence check is always positive. -/
def envExists : Env :=
  { resolve := fun _ => some ip5, ruleExists := fun _ => true,
    addOk := fun _ _ => true, delOk := fun _ => true }

/-- The i-th of 100 pairwise distinct rule keys `10.0.(i).1:22`. -/
def mkKeyI (i : Nat) : RuleKey :=
  (⟨⟨10, by omega⟩, ⟨0, by omega⟩, ⟨i % 256, Nat.mod_lt _ (by omega)⟩, ⟨1, by omega⟩⟩,
    ⟨22, by omega⟩)

/-- A set of exactly 100 rule keys. -/
def rules100 : Finset RuleKey := ((List.range 100).map mkKeyI).toFinset

/-- A persistent state that already holds 100 rules while an add of a
further key is pending. -/
def cacheC4 : Cache :=
  { state := CacheState.Adding, rules := rules100, pending := some key5_22 }

/-- The persistent state named by the round-trip claim. -/
def cacheC6 : Cache :=
  { state := CacheState.Adding, rules := {key5_22, key6_80}, pending := some key5_22 }

/-- A cache file whose `STATE:` line says `ADDING` but that carries no
`PENDING:` value. -/
def contentStateAdding : List Char := "STATE:ADDING\n".data

/-- First half of a tagged listing line (marker first keeps evaluation cheap). -/
def ruleLinePre : List Char := "DDNS-ACCESS -s 10.0.0.".data

/-- Second half of a tagged listing line. -/
def ruleLineSuf : List Char := "/32 --dport 22".data

/-- A tagged listing line for source address `10.0.0.i`. -/
def mkRuleLine (i : Nat) : List Char := ruleLinePre ++ toDec i ++ ruleLineSuf

/-- A listing of 101 distinct parseable tagged rules. -/
def bigListing : List (List Char) := (List.range 101).map mkRuleLine

/-- The key carried by the 101st line of `bigListing`. -/
def keyLine100 : RuleKey :=
  (⟨⟨10, by omega⟩, ⟨0, by omega⟩, ⟨0, by omega⟩, ⟨100, by omega⟩⟩, ⟨22, by omega⟩)

/-- 201 blank lines. -/
def emptyLines201 : List (List Char) := List.replicate 201 []

/-- An arbitrary small phase state used by witnesses. -/
def s0W : SyncSt :=
  { cache := Cache.new, desired := ∅, trace := [], live := ∅, saves := [] }

/-- First run of the idempotence counterexample: one entry, empty firewall,
both `addRule` attempts fail. -/
def out1F : RunOutcome := runSync envAllFail Cache.new [] cfgH22

/-- Second run of the idempotence counterexample, started from the live
rule set and persisted state the first run left. -/
def out2F : RunOutcome := runSync envAllFail out1F.cacheEnd [] cfgH22

-- ===========================================================================
-- Theorems. General list and character lemmas
-- ===========================================================================

theorem toDecGo_fuel : ∀ (f1 : Nat), ∀ (f2 n : Nat), n < f1 → n < f2 →
    toDecGo f1 n = toDecGo f2 n := by
  intro f1
  induction f1 with
  | zero => intro f2 n h1 _; omega
  | succ a ih =>
    intro f2 n h1 h2
    cases f2 with
    | zero => omega
    | succ b =>
      rw [toDecGo, toDecGo]
      by_cases h : n < 10
      · rw [if_pos h, if_pos h]
      · rw [if_neg h, if_neg h]
        have hlt : n / 10 < n := Nat.div_lt_self (by omega) (by omega)
        rw [ih b (n / 10) (by omega) (by omega)]

theorem toDec_eq (n : Nat) :
    toDec n = if n < 10 then [Nat.digitChar n]
      else toDec (n / 10) ++ [Nat.digitChar (n % 10)] := by
  rw [toDec, toDecGo]
  by_cases h : n < 10
  · rw [if_pos h, if_pos h]
  · rw [if_neg h, if_neg h, toDec]
    have hlt : n / 10 < n := Nat.div_lt_self (by omega) (by omega)
    rw [toDecGo_fuel n (n / 10 + 1) (n / 10) (by omega) (by omega)]

theorem take_of_len_le {α : Type _} : ∀ (l : List α) (n : Nat), l.length ≤ n → l.take n = l := by
  intro l
  induction l with
  | nil => intro n _; simp
  | cons a t ih =>
    intro n h
    cases n with
    | zero => simp at h
    | succ m => simp only [List.take_succ_cons]; rw [ih m (by simpa using h)]

theorem headD_append_of_ne_nil {l t : List Char} {x : Char} (h : l ≠ []) :
    (l ++ t).headD x = l.headD x := by
  cases l with
  | nil => exact absurd rfl h
  | cons a r => simp

theorem headD_mem {l : List Char} {x : Char} (h : l ≠ []) : l.headD x ∈ l := by
  cases l with
  | nil => exact absurd rfl h
  | cons a r => simp

theorem getLast?_mem_of_eq {l : List Char} {a : Char} (h : l.getLast? = some a) : a ∈ l := by
  induction l with
  | nil => simp [List.getLast?] at h
  | cons b t ih =>
    cases t with
    | nil =>
      simp [List.getLast?] at h
      simp [h]
    | cons u v =>
      rw [List.getLast?_cons_cons] at h
      exact List.mem_cons_of_mem _ (ih h)

-- ===========================================================================
-- Decimal formatting round-trip
-- ===========================================================================

theorem digitChar_isDigit {m : Nat} (h : m < 10) : (Nat.digitChar m).isDigit = true := by
  interval_cases m <;> decide

theorem digitChar_toNat {m : Nat} (h : m < 10) : (Nat.digitChar m).toNat = 48 + m := by
  interval_cases m <;> decide

theorem digitChar_ne_zeroChar {m : Nat} (h1 : 0 < m) (h2 : m < 10) :
    Nat.digitChar m ≠ '0' := by
  interval_cases m <;> decide

theorem toDec_ne_nil (n : Nat) : toDec n ≠ [] := by
  rw [toDec_eq]
  split
  · simp
  · simp

theorem toDec_digits (n : Nat) : ∀ c ∈ toDec n, c.isDigit = true := by
  induction n using Nat.strong_induction_on with
  | _ n ih =>
    rw [toDec_eq]
    split
    · intro c hc
      rw [List.mem_singleton] at hc
      subst hc
      exact digitChar_isDigit (by omega)
    · intro c hc
      rw [List.mem_append] at hc
      rcases hc with hc | hc
      · exact ih (n / 10) (Nat.div_lt_self (by omega) (by omega)) c hc
      · rw [List.mem_singleton] at hc
        subst hc
        exact digitChar_isDigit (Nat.mod_lt _ (by omega))

theorem decVal_append_digit (s : List Char) (c : Char) :
    decVal (s ++ [c]) = decVal s * 10 + (c.toNat - 48) := by
  simp [decVal, List.foldl_append]

theorem decVal_toDec (n : Nat) : decVal (toDec n) = n := by
  induction n using Nat.strong_induction_on with
  | _ n ih =>
    rw [toDec_eq]
    split
    · rename_i h
      simp [decVal, digitChar_toNat h]
    · rename_i h
      rw [decVal_append_digit, ih (n / 10) (Nat.div_lt_self (by omega) (by omega)),
        digitChar_toNat (Nat.mod_lt _ (by omega))]
      omega

theorem toDec_headD_ne_zero (n : Nat) (h : n ≠ 0) : (toDec n).headD ' ' ≠ '0' := by
  induction n using Nat.strong_induction_on with
  | _ n ih =>
    rw [toDec_eq]
    split
    · rename_i h10
      simpa using digitChar_ne_zeroChar (by omega) h10
    · rename_i h10
      rw [headD_append_of_ne_nil (toDec_ne_nil _)]
      exact ih (n / 10) (Nat.div_lt_self (by omega) (by omega)) (by omega)

theorem toDec_no_lead_zero (n : Nat) :
    (toDec n).length = 1 ∨ (toDec n).headD ' ' ≠ '0' := by
  by_cases h : n = 0
  · subst h
    left
    rw [toDec_eq]
    simp
  · right
    exact toDec_headD_ne_zero n h

theorem isDigit_ne_of {c : Char} (x : Char) (h : c.isDigit = true) (hx : x.isDigit = false) :
    c ≠ x := by
  intro he
  rw [he, hx] at h
  cases h

theorem isDigit_not_ws {c : Char} (h : c.isDigit = true) : c.isWhitespace = false := by
  by_contra hw
  rw [Bool.not_eq_false] at hw
  simp only [Char.isWhitespace, Bool.or_eq_true, decide_eq_true_eq] at hw
  rcases hw with ((h2 | h2) | h2) | h2 <;> subst h2 <;> revert h <;> decide

-- ===========================================================================
-- Split/join and prefix lemmas
-- ===========================================================================

theorem splitOnC_no_sep {sep : Char} : ∀ {s : List Char}, sep ∉ s → splitOnC sep s = [s] := by
  intro s
  induction s with
  | nil => intro _; rfl
  | cons a rest ih =>
    intro h
    have hne : ¬ a = sep := fun he => h (by rw [← he]; exact List.mem_cons_self a rest)
    rw [splitOnC, if_neg hne]
    rw [ih (fun hm => h (List.mem_cons_of_mem a hm))]

theorem splitOnC_append {sep : Char} : ∀ {a : List Char} (b : List Char), sep ∉ a →
    splitOnC sep (a ++ sep :: b) = a :: splitOnC sep b := by
  intro a
  induction a with
  | nil =>
    intro b _
    simp [splitOnC]
  | cons c a' ih =>
    intro b h
    have hne : ¬ c = sep := fun he => h (by rw [← he]; exact List.mem_cons_self c a')
    rw [List.cons_append, splitOnC, if_neg hne]
    rw [ih b (fun hm => h (List.mem_cons_of_mem c hm))]

theorem splitOnC_joinC {sep : Char} : ∀ (parts : List (List Char)), parts ≠ [] →
    (∀ p ∈ parts, sep ∉ p) → splitOnC sep (joinC sep parts) = parts := by
  intro parts
  induction parts with
  | nil => intro h _; exact absurd rfl h
  | cons x rest ih =>
    intro _ hni
    cases rest with
    | nil => exact splitOnC_no_sep (hni x (List.mem_cons_self _ _))
    | cons y t =>
      rw [joinC, splitOnC_append _ (hni x (List.mem_cons_self _ _))]
      rw [ih (by simp) (fun p hp => hni p (List.mem_cons_of_mem x hp))]

theorem joinC_mem {sep : Char} : ∀ {parts : List (List Char)} {c : Char},
    c ∈ joinC sep parts → c = sep ∨ ∃ p ∈ parts, c ∈ p := by
  intro parts
  induction parts with
  | nil => intro c hc; simp [joinC] at hc
  | cons x rest ih =>
    intro c hc
    cases rest with
    | nil =>
      right
      exact ⟨x, List.mem_cons_self _ _, hc⟩
    | cons y t =>
      rw [joinC, List.mem_append] at hc
      rcases hc with hc | hc
      · right; exact ⟨x, List.mem_cons_self _ _, hc⟩
      · rcases List.mem_cons.mp hc with hc | hc
        · left; exact hc
        · rcases ih hc with hs | ⟨p, hp, hcp⟩
          · left; exact hs
          · right; exact ⟨p, List.mem_cons_of_mem x hp, hcp⟩

theorem lastColonSplit_of_no_colon : ∀ {s : List Char}, (':' : Char) ∉ s →
    lastColonSplit s = none := by
  intro s
  induction s with
  | nil => intro _; rfl
  | cons a rest ih =>
    intro h
    have hne : ¬ a = ':' := fun he => h (by rw [← he]; exact List.mem_cons_self a rest)
    rw [lastColonSplit, ih (fun hm => h (List.mem_cons_of_mem a hm))]
    exact if_neg hne

theorem lastColonSplit_append : ∀ {a : List Char} (b : List Char), (':' : Char) ∉ a →
    (':' : Char) ∉ b → lastColonSplit (a ++ ':' :: b) = some (a, b) := by
  intro a
  induction a with
  | nil =>
    intro b _ hb
    rw [List.nil_append, lastColonSplit, lastColonSplit_of_no_colon hb]
    simp
  | cons c a' ih =>
    intro b ha hb
    rw [List.cons_append, lastColonSplit, ih b (fun hm => ha (List.mem_cons_of_mem c hm)) hb]

theorem dropWhile_no_ws {s : List Char} (h : ∀ c ∈ s, c.isWhitespace = false) :
    s.dropWhile Char.isWhitespace = s := by
  cases s with
  | nil => rfl
  | cons a r => simp [List.dropWhile, h a (List.mem_cons_self a r)]

theorem trimL_no_ws {s : List Char} (h : ∀ c ∈ s, c.isWhitespace = false) : trimL s = s := by
  rw [trimL, dropWhile_no_ws h, dropWhile_no_ws (by intro c hc; exact h c (List.mem_reverse.mp hc)),
    List.reverse_reverse]

theorem leadMatch_refl_append : ∀ (p r : List Char), leadMatch p (p ++ r) = true := by
  intro p
  induction p with
  | nil => intro r; rfl
  | cons a p' ih => intro r; simp [leadMatch, ih r]

theorem leadMatch_ne_head {a b : Char} (p s : List Char) (h : (a == b) = false) :
    leadMatch (a :: p) (b :: s) = false := by
  simp [leadMatch, h]

theorem stripLead_refl_append (p r : List Char) : stripLead p (p ++ r) = some r := by
  rw [stripLead, if_pos (leadMatch_refl_append p r), List.drop_left]

-- ===========================================================================
-- Format/parse round-trips for keys
-- ===========================================================================

theorem toDec_not_mem_of_not_digit {x : Char} (hx : x.isDigit = false) (n : Nat) :
    x ∉ toDec n := by
  intro hm
  have := toDec_digits n x hm
  rw [hx] at this
  cases this

theorem parseOctet_toDec (v : Fin 256) : parseOctet (toDec v.val) = some v := by
  have hcond : toDec v.val ≠ [] ∧ (toDec v.val).all Char.isDigit ∧
      ((toDec v.val).length = 1 ∨ (toDec v.val).headD ' ' ≠ '0') ∧ decVal (toDec v.val) < 256 := by
    refine ⟨toDec_ne_nil _, ?_, ?_, ?_⟩
    · rw [List.all_eq_true]
      intro c hc
      exact toDec_digits _ c hc
    · exact toDec_no_lead_zero v.val
    · rw [decVal_toDec]; exact v.isLt
  rw [parseOctet, dif_pos hcond]
  congr 1
  exact Fin.ext (decVal_toDec v.val)

theorem plusStrip_of_head_digit {s : List Char}
    (hd : (s.headD ' ').isDigit = true) : plusStrip s = s := by
  rw [plusStrip, if_neg]
  intro he
  rw [he] at hd
  revert hd
  decide

theorem parseU16_toDec (p : Fin 65536) : parseU16 (toDec p.val) = some p := by
  have hps : plusStrip (toDec p.val) = toDec p.val :=
    plusStrip_of_head_digit (toDec_digits _ _ (headD_mem (toDec_ne_nil _)))
  have hcond : plusStrip (toDec p.val) ≠ [] ∧ (plusStrip (toDec p.val)).all Char.isDigit ∧
      decVal (plusStrip (toDec p.val)) < 65536 := by
    rw [hps]
    refine ⟨toDec_ne_nil _, ?_, ?_⟩
    · rw [List.all_eq_true]
      intro c hc
      exact toDec_digits _ c hc
    · rw [decVal_toDec]; exact p.isLt
  rw [parseU16, dif_pos hcond]
  congr 1
  apply Fin.ext
  simp only [hps]
  exact decVal_toDec p.val

theorem fmtIp_chars {ip : Ipv4} {c : Char} (hc : c ∈ fmtIp ip) :
    c.isDigit = true ∨ c = '.' := by
  rw [fmtIp] at hc
  simp only [List.append_assoc, List.cons_append] at hc
  rcases List.mem_append.mp hc with h | h
  · exact Or.inl (toDec_digits _ c h)
  rcases List.mem_cons.mp h with h | h
  · exact Or.inr h
  rcases List.mem_append.mp h with h | h
  · exact Or.inl (toDec_digits _ c h)
  rcases List.mem_cons.mp h with h | h
  · exact Or.inr h
  rcases List.mem_append.mp h with h | h
  · exact Or.inl (toDec_digits _ c h)
  rcases List.mem_cons.mp h with h | h
  · exact Or.inr h
  · exact Or.inl (toDec_digits _ c h)

theorem fmtKey_chars {k : RuleKey} {c : Char} (hc : c ∈ fmtKey k) :
    c.isDigit = true ∨ c = '.' ∨ c = ':' := by
  rw [fmtKey] at hc
  rcases List.mem_append.mp hc with h | h
  · rcases fmtIp_chars h with h' | h'
    · exact Or.inl h'
    · exact Or.inr (Or.inl h')
  rcases List.mem_cons.mp h with h | h
  · exact Or.inr (Or.inr h)
  · exact Or.inl (toDec_digits _ c h)

theorem fmtKey_ne_nil (k : RuleKey) : fmtKey k ≠ [] := by
  rw [fmtKey]
  intro h
  rcases List.append_eq_nil.mp h with ⟨_, h2⟩
  cases h2

theorem parseIpv4_fmtIp (ip : Ipv4) : parseIpv4 (fmtIp ip) = some ip := by
  have hnd : ∀ n : Nat, ('.' : Char) ∉ toDec n := fun n => toDec_not_mem_of_not_digit (by decide) n
  have hsplit : splitOnC '.' (fmtIp ip) =
      [toDec ip.a.val, toDec ip.b.val, toDec ip.c.val, toDec ip.d.val] := by
    rw [fmtIp]
    simp only [List.cons_append, List.append_assoc]
    rw [splitOnC_append _ (hnd ip.a.val), splitOnC_append _ (hnd ip.b.val),
      splitOnC_append _ (hnd ip.c.val), splitOnC_no_sep (hnd ip.d.val)]
  rw [parseIpv4, hsplit]
  simp only [parseOctet_toDec]

theorem parse_ip_port_fmtKey (k : RuleKey) : parse_ip_port (fmtKey k) = some k := by
  have hnws : ∀ c ∈ fmtKey k, c.isWhitespace = false := by
    intro c hc
    rcases fmtKey_chars hc with h | h | h
    · exact isDigit_not_ws h
    · rw [h]; decide
    · rw [h]; decide
  have hnc1 : (':' : Char) ∉ fmtIp k.1 := by
    intro hm
    rcases fmtIp_chars hm with h | h
    · revert h; decide
    · cases h
  have hnc2 : (':' : Char) ∉ toDec k.2.val := toDec_not_mem_of_not_digit (by decide) _
  rw [parse_ip_port]
  simp only [trimL_no_ws hnws]
  rw [if_neg (fmtKey_ne_nil k)]
  rw [fmtKey, lastColonSplit_append _ hnc1 hnc2]
  simp only [parseIpv4_fmtIp, parseU16_toDec]

theorem parseRuleFrags_map_fmtKey : ∀ (ks : List RuleKey) (cnt : Nat),
    cnt + ks.length ≤ MAX_RULES → parseRuleFrags cnt (ks.map fmtKey) = ks := by
  intro ks
  induction ks with
  | nil => intro cnt _; rfl
  | cons k t ih =>
    intro cnt h
    rw [List.map_cons, parseRuleFrags, if_neg (by simp at h ⊢; omega), parse_ip_port_fmtKey]
    rw [ih (cnt + 1) (by simp at h ⊢; omega)]

-- ===========================================================================
-- Cache save/load round-trip
-- ===========================================================================

theorem not_mem_fmtKey_of {x : Char} (h1 : x.isDigit = false) (h2 : x ≠ '.')
    (h3 : x ≠ ':') (k : RuleKey) : x ∉ fmtKey k := by
  intro hm
  rcases fmtKey_chars hm with h | h | h
  · rw [h1] at h; cases h
  · exact h2 h
  · exact h3 h

theorem not_mem_joinKeys {x : Char} (h1 : x.isDigit = false) (h2 : x ≠ '.')
    (h3 : x ≠ ':') (h4 : x ≠ ',') (ks : List RuleKey) :
    x ∉ joinC ',' (ks.map fmtKey) := by
  intro hm
  rcases joinC_mem hm with h | ⟨p, hp, hxp⟩
  · exact h4 h
  · rcases List.mem_map.mp hp with ⟨k, _, rfl⟩
    exact not_mem_fmtKey_of h1 h2 h3 k hxp

theorem not_mem_stateLine {x : Char} (hx : x ∉ statePre ∧ ∀ st, x ∉ stateTag st)
    (st : CacheState) : x ∉ statePre ++ stateTag st := by
  intro hm
  rcases List.mem_append.mp hm with h | h
  · exact hx.1 h
  · exact hx.2 st h

theorem not_mem_rulesLine {x : Char} (h1 : x.isDigit = false) (h2 : x ≠ '.')
    (h3 : x ≠ ':') (h4 : x ≠ ',') (h5 : x ∉ rulesPre) (ks : List RuleKey) :
    x ∉ rulesPre ++ joinC ',' (ks.map fmtKey) := by
  intro hm
  rcases List.mem_append.mp hm with h | h
  · exact h5 h
  · exact not_mem_joinKeys h1 h2 h3 h4 ks h

theorem not_mem_pendingLine {x : Char} (h1 : x.isDigit = false) (h2 : x ≠ '.')
    (h3 : x ≠ ':') (h5 : x ∉ pendingPre) (p : Option RuleKey) :
    x ∉ pendingPre ++ (match p with | some k => fmtKey k | none => []) := by
  intro hm
  rcases List.mem_append.mp hm with h | h
  · exact h5 h
  · cases p with
    | some k => exact not_mem_fmtKey_of h1 h2 h3 k h
    | none => cases h

theorem stripCr_id {l : List Char} (h : ('\r' : Char) ∉ l) :
    (if l.getLast? = some '\r' then l.dropLast else l) = l := by
  rw [if_neg]
  intro he
  exact h (getLast?_mem_of_eq he)

theorem rustLines_saveContent (c : Cache) :
    rustLines (saveContent c) =
      [statePre ++ stateTag c.state,
        rulesPre ++ joinC ',' (((rulesList c.rules).take MAX_RULES).map fmtKey),
        pendingPre ++ (match c.pending with | some k => fmtKey k | none => [])] := by
  have hn1 : ('\n' : Char) ∉ statePre ++ stateTag c.state :=
    not_mem_stateLine (by constructor <;> first | decide | (intro st; cases st <;> decide)) c.state
  have hr1 : ('\r' : Char) ∉ statePre ++ stateTag c.state :=
    not_mem_stateLine (by constructor <;> first | decide | (intro st; cases st <;> decide)) c.state
  have hn2 : ('\n' : Char) ∉
      rulesPre ++ joinC ',' (((rulesList c.rules).take MAX_RULES).map fmtKey) :=
    not_mem_rulesLine (by decide) (by decide) (by decide) (by decide) (by decide) _
  have hr2 : ('\r' : Char) ∉
      rulesPre ++ joinC ',' (((rulesList c.rules).take MAX_RULES).map fmtKey) :=
    not_mem_rulesLine (by decide) (by decide) (by decide) (by decide) (by decide) _
  have hn3 : ('\n' : Char) ∉
      pendingPre ++ (match c.pending with | some k => fmtKey k | none => []) :=
    not_mem_pendingLine (by decide) (by decide) (by decide) (by decide) c.pending
  have hr3 : ('\r' : Char) ∉
      pendingPre ++ (match c.pending with | some k => fmtKey k | none => []) :=
    not_mem_pendingLine (by decide) (by decide) (by decide) (by decide) c.pending
  have hsplit : splitOnC '\n' (saveContent c) =
      [statePre ++ stateTag c.state,
        rulesPre ++ joinC ',' (((rulesList c.rules).take MAX_RULES).map fmtKey),
        pendingPre ++ (match c.pending with | some k => fmtKey k | none => []), []] := by
    rw [saveContent]
    rw [splitOnC_append _ hn1, splitOnC_append _ hn2, splitOnC_append _ hn3]
    rfl
  rw [rustLines, hsplit]
  simp only [List.getLast?_cons_cons, List.getLast?_singleton]
  simp only [stripCrBody, List.dropLast]
  simp only [List.map_cons, List.map_nil]
  rw [stripCr_id hr1, stripCr_id hr2, stripCr_id hr3]

theorem leadMatch_statePre_rulesLine (r : List Char) :
    leadMatch statePre (rulesPre ++ r) = false := by
  rw [statePre, rulesPre]
  simp only [List.cons_append]
  exact leadMatch_ne_head _ _ (by decide)

theorem leadMatch_statePre_pendingLine (r : List Char) :
    leadMatch statePre (pendingPre ++ r) = false := by
  rw [statePre, pendingPre]
  simp only [List.cons_append]
  exact leadMatch_ne_head _ _ (by decide)

theorem leadMatch_rulesPre_pendingLine (r : List Char) :
    leadMatch rulesPre (pendingPre ++ r) = false := by
  rw [rulesPre, pendingPre]
  simp only [List.cons_append]
  exact leadMatch_ne_head _ _ (by decide)

theorem loadLine_state (c : Cache) (r : List Char) :
    loadLine c (statePre ++ r) = { c with state := tagState r } := by
  rw [loadLine, if_pos (by rw [leadMatch_refl_append]), List.drop_left]

theorem loadLine_rules (c : Cache) (r : List Char) :
    loadLine c (rulesPre ++ r) =
      { c with rules := c.rules ∪ (parseRuleFrags 0 (splitOnC ',' r)).toFinset } := by
  rw [loadLine, if_neg (by rw [leadMatch_statePre_rulesLine]; exact Bool.false_ne_true),
    if_pos (by rw [leadMatch_refl_append]), List.drop_left]

theorem loadLine_pending (c : Cache) (r : List Char) :
    loadLine c (pendingPre ++ r) = { c with pending := parse_ip_port r } := by
  rw [loadLine, if_neg (by rw [leadMatch_statePre_pendingLine]; exact Bool.false_ne_true),
    if_neg (by rw [leadMatch_rulesPre_pendingLine]; exact Bool.false_ne_true),
    if_pos (by rw [leadMatch_refl_append]), List.drop_left]

theorem tagState_stateTag (st : CacheState) : tagState (stateTag st) = st := by
  cases st <;> decide

theorem rulesList_toFinset (s : Finset RuleKey) : (rulesList s).toFinset = s := by
  ext a
  simp [rulesList, Finset.mem_sort]

theorem rulesList_length (s : Finset RuleKey) : (rulesList s).length = s.card :=
  Finset.length_sort keyLE

theorem parseRuleFrags_join (ks : List RuleKey) (h : ks.length ≤ MAX_RULES) :
    (parseRuleFrags 0 (splitOnC ',' (joinC ',' (ks.map fmtKey)))).toFinset = ks.toFinset := by
  cases ks with
  | nil => rfl
  | cons k t =>
    rw [splitOnC_joinC _ (by simp) ?hcomma]
    case hcomma =>
      intro p hp hm
      rcases List.mem_map.mp hp with ⟨k', _, rfl⟩
      exact not_mem_fmtKey_of (by decide) (by decide) (by decide) k' hm
    rw [parseRuleFrags_map_fmtKey _ 0 (by simpa using h)]

/-- Claim C6: serializing a persistent state that holds at most 100 rules
with `save` and parsing the resulting three-line text back with `load`
yields a state equal to the original (same operation tag, same pending
key, same rule set). -/
theorem cache_save_load_roundtrip (c : Cache) (h : c.rules.card ≤ MAX_RULES) :
    loadContent (saveContent c) = c := by
  obtain ⟨st, ru, pe⟩ := c
  have hlen : (rulesList ru).length ≤ MAX_RULES := by
    rw [rulesList_length]
    exact h
  have htake : (rulesList ru).take MAX_RULES = rulesList ru := take_of_len_le _ _ hlen
  rw [loadContent, rustLines_saveContent]
  rw [loadLines, take_of_len_le _ _ (by simp)]
  simp only [List.foldl_cons, List.foldl_nil]
  rw [loadLine_state, loadLine_rules, loadLine_pending]
  simp only [Cache.new, Cache.mk.injEq]
  refine ⟨tagState_stateTag st, ?_, ?_⟩
  · rw [htake, parseRuleFrags_join _ hlen, rulesList_toFinset]
    exact Finset.empty_union ru
  · cases pe with
    | none => decide
    | some k => exact parse_ip_port_fmtKey k

/-- Witness for the round-trip claim at the state named by the spec:
`{operation=Adding, pending=10.0.0.5:22, knownRules={10.0.0.5:22, 10.0.0.6:80}}`. -/
theorem cache_save_load_roundtrip_witness :
    cacheC6.rules.card ≤ MAX_RULES ∧ loadContent (saveContent cacheC6) = cacheC6 :=
  ⟨by decide, cache_save_load_roundtrip cacheC6 (by decide)⟩

/-- Claim C7 (amended): the pending-iff-busy invariant holds for the
initial state and for the result of every transition helper applied to any
state; it is maintained by the helpers rather than structurally enforced,
and `load` can construct a state that violates it. -/
theorem pending_iff_busy_invariant :
    pendingIffBusy Cache.new ∧
      ∀ (c : Cache) (k : RuleKey),
        pendingIffBusy (Cache.set_idle c) ∧ pendingIffBusy (Cache.set_adding c k) ∧
          pendingIffBusy (Cache.set_deleting c k) ∧ pendingIffBusy (Cache.add_rule c k) ∧
            pendingIffBusy (Cache.remove_rule c k) := by
  refine ⟨by rw [pendingIffBusy]; decide, fun c k => ?_⟩
  simp [pendingIffBusy, Cache.set_idle, Cache.set_adding, Cache.set_deleting,
    Cache.add_rule, Cache.remove_rule]

/-- Counterexample to claim C7 as stated: `load` applied to the file
content `STATE:ADDING\n` constructs a state with a non-idle operation and
no pending key, so the invariant does not hold for every value `load`
returns and is not structurally enforced. -/
theorem pending_iff_busy_load_cex :
    (loadContent contentStateAdding).state = CacheState.Adding ∧
      (loadContent contentStateAdding).pending = none ∧
        ¬ pendingIffBusy (loadContent contentStateAdding) := by
  refine ⟨by decide, by decide, ?_⟩
  intro h
  have h1 : (loadContent contentStateAdding).pending.isSome = true := by
    rw [pendingIffBusy] at h
    exact h.mpr (by decide)
  revert h1
  decide

/-- Claim C4 (amended): recovery from a loaded `Adding` state with pending
key `k` checks `ruleExists(k)`; on a positive check it commits without a
firewall call, on a negative one it calls `addRule(k)` exactly once and
commits on success or goes idle (rule set untouched) on failure; a commit
sets the state idle and inserts `k` into the known rules provided fewer
than 100 rules are recorded; recovery from a loaded `Deleting` state makes
no firewall call and clears to idle with the rule set untouched. -/
theorem recover_behavior (env : Env) (c : Cache) (k : RuleKey) :
    (c.state = CacheState.Adding → c.pending = some k →
      (env.ruleExists k = true →
          recover_from_crash env c = (Cache.add_rule c k, [], [Cache.add_rule c k])) ∧
        (env.ruleExists k = false → env.addOk k 0 = true →
          recover_from_crash env c =
            (Cache.add_rule c k, [FwEvent.add k true], [Cache.add_rule c k])) ∧
        (env.ruleExists k = false → env.addOk k 0 = false →
          recover_from_crash env c =
            (Cache.set_idle c, [FwEvent.add k false], [Cache.set_idle c])) ∧
        (Cache.add_rule c k).state = CacheState.Idle ∧
        (c.rules.card < MAX_RULES → k ∈ (Cache.add_rule c k).rules) ∧
        (Cache.set_idle c).rules = c.rules) ∧
      (c.state = CacheState.Deleting →
        recover_from_crash env c = (Cache.set_idle c, [], [Cache.set_idle c]) ∧
          (Cache.set_idle c).state = CacheState.Idle ∧
          (Cache.set_idle c).rules = c.rules) := by
  obtain ⟨st, ru, pe⟩ := c
  constructor
  · intro h1 h2
    simp only at h1 h2
    subst h1
    subst h2
    refine ⟨?_, ?_, ?_, rfl, ?_, rfl⟩
    · intro he
      simp [recover_from_crash, he]
    · intro he ha
      simp [recover_from_crash, he, ha]
    · intro he ha
      simp [recover_from_crash, he, ha]
    · intro hcard
      simp [Cache.add_rule, if_pos hcard]
  · intro h1
    simp only at h1
    subst h1
    exact ⟨by simp [recover_from_crash], rfl, rfl⟩

set_option maxRecDepth 40000 in
/-- Counterexample to claim C4 as stated: with 100 rules already recorded,
a recovery commit does not insert the pending key into `knownRules` (the
insertion is guarded by the 100-rule cap), so "on success or pre-existing
presence the add is committed (k inserted into knownRules)" fails. -/
theorem recovery_commit_cap_cex :
    cacheC4.state = CacheState.Adding ∧ cacheC4.pending = some key5_22 ∧
      envExists.ruleExists key5_22 = true ∧
        key5_22 ∉ (recover_from_crash envExists cacheC4).1.rules := by
  refine ⟨by decide, by decide, by decide, ?_⟩
  decide

/-- Witness for the amended recovery claim: a commit below the cap really
inserts the key and goes idle, and a `Deleting` recovery makes no call. -/
theorem recover_behavior_witness :
    recover_from_crash envExists cacheC6 =
        (Cache.add_rule cacheC6 key5_22, [], [Cache.add_rule cacheC6 key5_22]) ∧
      key5_22 ∈ (Cache.add_rule cacheC6 key5_22).rules := by
  have h := recover_behavior envExists cacheC6 key5_22
  exact ⟨(h.1 (by decide) (by decide)).1 (by decide),
    (h.1 (by decide) (by decide)).2.2.2.2.1 (by decide)⟩

/-- Claim C8 (amended): the privilege check exits with status 1 before any
mutation; a lock timeout or a missing iptables binary aborts the run
before any state or firewall mutation but the process exits 0; a run that
executes exits 0 whatever the per-rule outcomes were. -/
theorem main_exit_status (env : Env) (isRoot lockOk iptablesOk : Bool) (c0 : Cache)
    (listing : List RuleKey) (cfg : List (List Char)) :
    (isRoot = false →
        mainInstalled env isRoot lockOk iptablesOk c0 listing cfg = { exit := 1, ran := none }) ∧
      (isRoot = true → lockOk = false →
        mainInstalled env isRoot lockOk iptablesOk c0 listing cfg = { exit := 0, ran := none }) ∧
      (isRoot = true → lockOk = true → iptablesOk = false →
        mainInstalled env isRoot lockOk iptablesOk c0 listing cfg = { exit := 0, ran := none }) ∧
      (isRoot = true → lockOk = true → iptablesOk = true →
        mainInstalled env isRoot lockOk iptablesOk c0 listing cfg =
          { exit := 0, ran := some (runSync env c0 listing cfg) }) := by
  refine ⟨?_, ?_, ?_, ?_⟩ <;> intros <;> subst_vars <;> simp [mainInstalled]

/-- Counterexample to claim C8 as stated: a lock-acquisition timeout is a
setup failure, yet the process exits with status 0 (success), not a
failing status. -/
theorem lock_timeout_exit_cex :
    mainInstalled envAllOk true false true Cache.new [] cfgH22 = { exit := 0, ran := none } := by
  decide

/-- Witness for the amended exit-status claim: the privilege failure case
and the full-run case, instantiated concretely. -/
theorem main_exit_status_witness :
    mainInstalled envAllOk false true true Cache.new [] cfgH22 = { exit := 1, ran := none } ∧
      mainInstalled envAllOk true true true Cache.new [] cfgH22 =
        { exit := 0, ran := some (runSync envAllOk Cache.new [] cfgH22) } :=
  ⟨(main_exit_status envAllOk false true true Cache.new [] cfgH22).1 rfl,
    (main_exit_status envAllOk true true true Cache.new [] cfgH22).2.2.2 rfl rfl rfl⟩

-- ===========================================================================
-- Step-shape lemmas for the add and delete phases
-- ===========================================================================

theorem addStep_eq_pos1 (env : Env) (ex : Finset RuleKey) (s : SyncSt) (k : RuleKey)
    (h1 : env.addOk k (countAdds s.trace k) = true) :
    addStep env ex s k =
      { cache := Cache.add_rule (Cache.set_adding s.cache k) k,
        desired := s.desired,
        trace := s.trace ++ [FwEvent.add k true],
        live := insert k s.live,
        saves := s.saves ++
          [Cache.set_adding s.cache k, Cache.add_rule (Cache.set_adding s.cache k) k] } := by
  simp [addStep, h1]

theorem addStep_eq_pos2 (env : Env) (ex : Finset RuleKey) (s : SyncSt) (k : RuleKey)
    (h1 : env.addOk k (countAdds s.trace k) = false)
    (h2 : env.addOk k (countAdds s.trace k + 1) = true) :
    addStep env ex s k =
      { cache := Cache.add_rule (Cache.set_adding s.cache k) k,
        desired := s.desired,
        trace := s.trace ++ [FwEvent.add k false, FwEvent.add k true],
        live := insert k s.live,
        saves := s.saves ++
          [Cache.set_adding s.cache k, Cache.add_rule (Cache.set_adding s.cache k) k] } := by
  simp [addStep, h1, h2]

theorem addStep_eq_neg (env : Env) (ex : Finset RuleKey) (s : SyncSt) (k : RuleKey)
    (h1 : env.addOk k (countAdds s.trace k) = false)
    (h2 : env.addOk k (countAdds s.trace k + 1) = false) :
    addStep env ex s k =
      { cache := Cache.set_idle (Cache.set_adding s.cache k),
        desired := s.desired ∪ ex.filter (fun r => r.2 = k.2),
        trace := s.trace ++ [FwEvent.add k false, FwEvent.add k false],
        live := s.live,
        saves := s.saves ++
          [Cache.set_adding s.cache k, Cache.set_idle (Cache.set_adding s.cache k)] } := by
  simp [addStep, h1, h2]

theorem addStep_shape (env : Env) (ex : Finset RuleKey) (s : SyncSt) (k : RuleKey) :
    ∃ Δ, (addStep env ex s k).trace = s.trace ++ Δ ∧ Δ.length ≤ 2 ∧
      (∀ e ∈ Δ, ∃ ok, e = FwEvent.add k ok) ∧
      s.desired ⊆ (addStep env ex s k).desired ∧
      ((addStep env ex s k).live = insert k s.live ∨ (addStep env ex s k).live = s.live) := by
  by_cases h1 : env.addOk k (countAdds s.trace k) = true
  · rw [addStep_eq_pos1 env ex s k h1]
    refine ⟨[FwEvent.add k true], rfl, by simp, ?_, fun x hx => hx, Or.inl rfl⟩
    intro e he
    simp at he
    exact ⟨true, he⟩
  · rw [Bool.not_eq_true] at h1
    by_cases h2 : env.addOk k (countAdds s.trace k + 1) = true
    · rw [addStep_eq_pos2 env ex s k h1 h2]
      refine ⟨[FwEvent.add k false, FwEvent.add k true], rfl, by simp, ?_,
        fun x hx => hx, Or.inl rfl⟩
      intro e he
      rcases List.mem_cons.mp he with h | h
      · exact ⟨false, h⟩
      · simp at h
        exact ⟨true, h⟩
    · rw [Bool.not_eq_true] at h2
      rw [addStep_eq_neg env ex s k h1 h2]
      refine ⟨[FwEvent.add k false, FwEvent.add k false], rfl, by simp, ?_,
        Finset.subset_union_left, Or.inr rfl⟩
      intro e he
      rcases List.mem_cons.mp he with h | h
      · exact ⟨false, h⟩
      · simp at h
        exact ⟨false, h⟩

theorem delStep_eq_skip (env : Env) (s : SyncSt) (k : RuleKey) (h : k ∈ s.desired) :
    delStep env s k = s := by
  simp [delStep, h]

theorem delStep_eq_ok (env : Env) (s : SyncSt) (k : RuleKey) (h : k ∉ s.desired)
    (hd : env.delOk k = true) :
    delStep env s k =
      { cache := Cache.remove_rule (Cache.set_deleting s.cache k) k,
        desired := s.desired,
        trace := s.trace ++ [FwEvent.del k true],
        live := s.live.erase k,
        saves := s.saves ++
          [Cache.set_deleting s.cache k,
            Cache.remove_rule (Cache.set_deleting s.cache k) k] } := by
  simp [delStep, h, hd]

theorem delStep_eq_fail (env : Env) (s : SyncSt) (k : RuleKey) (h : k ∉ s.desired)
    (hd : env.delOk k = false) :
    delStep env s k =
      { cache := Cache.set_idle (Cache.set_deleting s.cache k),
        desired := s.desired,
        trace := s.trace ++ [FwEvent.del k false],
        live := s.live,
        saves := s.saves ++
          [Cache.set_deleting s.cache k,
            Cache.set_idle (Cache.set_deleting s.cache k)] } := by
  simp [delStep, h, hd]

theorem delStep_shape (env : Env) (s : SyncSt) (k : RuleKey) :
    ∃ Δ, (delStep env s k).trace = s.trace ++ Δ ∧
      (∀ e ∈ Δ, ∃ ok, e = FwEvent.del k ok ∧ k ∉ s.desired) ∧
      (delStep env s k).desired = s.desired ∧
      (delStep env s k).live ⊆ s.live := by
  by_cases h : k ∈ s.desired
  · rw [delStep_eq_skip env s k h]
    refine ⟨[], by simp, ?_, rfl, fun x hx => hx⟩
    intro e he
    cases he
  · by_cases hd : env.delOk k = true
    · rw [delStep_eq_ok env s k h hd]
      refine ⟨[FwEvent.del k true], rfl, ?_, rfl, Finset.erase_subset _ _⟩
      intro e he
      simp at he
      exact ⟨true, he, h⟩
    · rw [Bool.not_eq_true] at hd
      rw [delStep_eq_fail env s k h hd]
      refine ⟨[FwEvent.del k false], rfl, ?_, rfl, fun x hx => hx⟩
      intro e he
      simp at he
      exact ⟨false, he, h⟩

-- ===========================================================================
-- Fold lemmas for the add phase
-- ===========================================================================

theorem addFold_trace (env : Env) (ex : Finset RuleKey) :
    ∀ (l : List RuleKey) (s : SyncSt), ∃ t',
      (List.foldl (addStep env ex) s l).trace = s.trace ++ t' ∧
        ∀ e ∈ t', ∃ k ok, e = FwEvent.add k ok ∧ k ∈ l := by
  intro l
  induction l with
  | nil => intro s; exact ⟨[], by simp, by intro e he; cases he⟩
  | cons k l ih =>
    intro s
    rw [List.foldl_cons]
    obtain ⟨Δ, hΔ, _, hmem, _, _⟩ := addStep_shape env ex s k
    obtain ⟨t', ht, hall⟩ := ih (addStep env ex s k)
    refine ⟨Δ ++ t', by rw [ht, hΔ, List.append_assoc], ?_⟩
    intro e he
    rcases List.mem_append.mp he with h | h
    · obtain ⟨ok, hok⟩ := hmem e h
      exact ⟨k, ok, hok, List.mem_cons_self k l⟩
    · obtain ⟨k', ok, hok, hk'⟩ := hall e h
      exact ⟨k', ok, hok, List.mem_cons_of_mem k hk'⟩

theorem addFold_trace_pre (env : Env) (ex : Finset RuleKey) (l : List RuleKey) (s : SyncSt)
    {e : FwEvent} (he : e ∈ s.trace) : e ∈ (List.foldl (addStep env ex) s l).trace := by
  obtain ⟨t', ht, _⟩ := addFold_trace env ex l s
  rw [ht, List.mem_append]
  exact Or.inl he

theorem addFold_desired_mono (env : Env) (ex : Finset RuleKey) :
    ∀ (l : List RuleKey) (s : SyncSt),
      s.desired ⊆ (List.foldl (addStep env ex) s l).desired := by
  intro l
  induction l with
  | nil => intro s; exact fun x hx => hx
  | cons k l ih =>
    intro s
    rw [List.foldl_cons]
    obtain ⟨_, _, _, _, hsub, _⟩ := addStep_shape env ex s k
    exact fun x hx => ih (addStep env ex s k) (hsub hx)

theorem addFold_live_true (env : Env) (ex : Finset RuleKey) :
    ∀ (l : List RuleKey) (s : SyncSt) (k' : RuleKey),
      k' ∈ (List.foldl (addStep env ex) s l).live →
        k' ∈ s.live ∨ FwEvent.add k' true ∈ (List.foldl (addStep env ex) s l).trace := by
  intro l
  induction l with
  | nil => intro s k' h; exact Or.inl h
  | cons k l ih =>
    intro s k' h
    rw [List.foldl_cons] at h ⊢
    rcases ih (addStep env ex s k) k' h with h1 | h1
    · by_cases hp1 : env.addOk k (countAdds s.trace k) = true
      · rw [addStep_eq_pos1 env ex s k hp1] at h1
        simp only [Finset.mem_insert] at h1
        rcases h1 with h1 | h1
        · rw [h1]
          refine Or.inr (addFold_trace_pre env ex l _ ?_)
          rw [addStep_eq_pos1 env ex s k hp1]
          simp
        · exact Or.inl h1
      · rw [Bool.not_eq_true] at hp1
        by_cases hp2 : env.addOk k (countAdds s.trace k + 1) = true
        · rw [addStep_eq_pos2 env ex s k hp1 hp2] at h1
          simp only [Finset.mem_insert] at h1
          rcases h1 with h1 | h1
          · rw [h1]
            refine Or.inr (addFold_trace_pre env ex l _ ?_)
            rw [addStep_eq_pos2 env ex s k hp1 hp2]
            simp
          · exact Or.inl h1
        · rw [Bool.not_eq_true] at hp2
          rw [addStep_eq_neg env ex s k hp1 hp2] at h1
          exact Or.inl h1
    · exact Or.inr h1

theorem addFold_fail_no_true (env : Env) (ex : Finset RuleKey) {k0 : RuleKey}
    (hfail : ∀ n, env.addOk k0 n = false) :
    ∀ (l : List RuleKey) (s : SyncSt), FwEvent.add k0 true ∉ s.trace →
      FwEvent.add k0 true ∉ (List.foldl (addStep env ex) s l).trace := by
  intro l
  induction l with
  | nil => intro s h; exact h
  | cons k l ih =>
    intro s h
    rw [List.foldl_cons]
    refine ih (addStep env ex s k) ?_
    by_cases hkk : k = k0
    · have h1 : env.addOk k (countAdds s.trace k) = false := by rw [hkk]; exact hfail _
      have h2 : env.addOk k (countAdds s.trace k + 1) = false := by rw [hkk]; exact hfail _
      rw [addStep_eq_neg env ex s k h1 h2]
      simp only [List.mem_append]
      intro hc
      rcases hc with hc | hc
      · exact h hc
      · simp at hc
    · obtain ⟨Δ, hΔ, _, hmem, _, _⟩ := addStep_shape env ex s k
      rw [hΔ, List.mem_append]
      intro hc
      rcases hc with hc | hc
      · exact h hc
      · obtain ⟨ok, hok⟩ := hmem _ hc
        rw [FwEvent.add.injEq] at hok
        exact hkk hok.1.symm

theorem addFold_fail_desired (env : Env) (ex : Finset RuleKey) {k0 : RuleKey}
    (hfail : ∀ n, env.addOk k0 n = false) :
    ∀ (l : List RuleKey) (s : SyncSt), k0 ∈ l →
      ex.filter (fun r => r.2 = k0.2) ⊆ (List.foldl (addStep env ex) s l).desired := by
  intro l
  induction l with
  | nil => intro s h; cases h
  | cons k l ih =>
    intro s h
    rw [List.foldl_cons]
    by_cases hkk : k = k0
    · have h1 : env.addOk k (countAdds s.trace k) = false := by rw [hkk]; exact hfail _
      have h2 : env.addOk k (countAdds s.trace k + 1) = false := by rw [hkk]; exact hfail _
      refine fun x hx => addFold_desired_mono env ex l _ ?_
      rw [addStep_eq_neg env ex s k h1 h2]
      refine Finset.mem_union_right _ ?_
      rw [hkk]
      exact hx
    · rcases List.mem_cons.mp h with hc | hc
      · exact absurd hc.symm hkk
      · exact ih (addStep env ex s k) hc

theorem addStep_countAdds (env : Env) (ex : Finset RuleKey) (s : SyncSt) (k k0 : RuleKey) :
    countAdds ((addStep env ex s k).trace) k0 ≤
      countAdds s.trace k0 + (if k = k0 then 2 else 0) := by
  obtain ⟨Δ, hΔ, hlen, hmem, _, _⟩ := addStep_shape env ex s k
  rw [hΔ, countAdds, List.countP_append]
  have hcount : Δ.countP (isAddOf k0) ≤ (if k = k0 then 2 else 0) := by
    by_cases hkk : k = k0
    · rw [if_pos hkk]
      calc Δ.countP (isAddOf k0) ≤ Δ.length := List.countP_le_length _
      _ ≤ 2 := hlen
    · rw [if_neg hkk]
      have hz : List.countP (isAddOf k0) Δ = 0 := by
        rw [List.countP_eq_zero]
        intro e he hc
        obtain ⟨ok, hok⟩ := hmem e he
        subst hok
        simp only [isAddOf, decide_eq_true_eq] at hc
        exact hkk hc
      omega
  rw [countAdds]
  omega

theorem addFold_countAdds (env : Env) (ex : Finset RuleKey) (k0 : RuleKey) :
    ∀ (l : List RuleKey) (s : SyncSt),
      countAdds ((List.foldl (addStep env ex) s l).trace) k0 ≤
        countAdds s.trace k0 + 2 * l.count k0 := by
  intro l
  induction l with
  | nil => intro s; simp
  | cons k l ih =>
    intro s
    rw [List.foldl_cons]
    calc countAdds ((List.foldl (addStep env ex) (addStep env ex s k) l).trace) k0 ≤
        countAdds (addStep env ex s k).trace k0 + 2 * l.count k0 := ih _
    _ ≤ countAdds s.trace k0 + (if k = k0 then 2 else 0) + 2 * l.count k0 := by
        have := addStep_countAdds env ex s k k0
        omega
    _ ≤ countAdds s.trace k0 + 2 * (k :: l).count k0 := by
        rw [List.count_cons]
        by_cases hkk : k = k0
        · have hbe : (k == k0) = true := by rw [beq_iff_eq]; exact hkk
          rw [if_pos hkk, hbe, if_pos rfl]
          omega
        · have hbe : (k == k0) = false := beq_eq_false_iff_ne.mpr hkk
          rw [if_neg hkk, hbe, if_neg Bool.false_ne_true]
          omega

theorem addFold_success (env : Env) (ex : Finset RuleKey)
    (hAdd : ∀ k n, env.addOk k n = true) :
    ∀ (l : List RuleKey) (s : SyncSt),
      (List.foldl (addStep env ex) s l).desired = s.desired ∧
        (List.foldl (addStep env ex) s l).live = s.live ∪ l.toFinset ∧
          (List.foldl (addStep env ex) s l).trace =
            s.trace ++ l.map (fun k => FwEvent.add k true) := by
  intro l
  induction l with
  | nil => intro s; exact ⟨rfl, by simp, by simp⟩
  | cons k l ih =>
    intro s
    rw [List.foldl_cons, addStep_eq_pos1 env ex s k (hAdd k _)]
    obtain ⟨h1, h2, h3⟩ := ih _
    refine ⟨h1, ?_, ?_⟩
    · rw [h2]
      simp only [List.toFinset_cons]
      ext a
      simp only [Finset.mem_union, Finset.mem_insert]
      constructor
      · rintro ((h | h) | h)
        · exact Or.inr (Or.inl h)
        · exact Or.inl h
        · exact Or.inr (Or.inr h)
      · rintro (h | h | h)
        · exact Or.inl (Or.inr h)
        · exact Or.inl (Or.inl h)
        · exact Or.inr h
    · rw [h3]
      simp [List.append_assoc]

-- ===========================================================================
-- Fold lemmas for the delete phase
-- ===========================================================================

theorem delFold_trace (env : Env) :
    ∀ (l : List RuleKey) (s : SyncSt), ∃ t',
      (List.foldl (delStep env) s l).trace = s.trace ++ t' ∧
        ∀ e ∈ t', ∃ k ok, e = FwEvent.del k ok := by
  intro l
  induction l with
  | nil => intro s; exact ⟨[], by simp, by intro e he; cases he⟩
  | cons k l ih =>
    intro s
    rw [List.foldl_cons]
    obtain ⟨Δ, hΔ, hmem, _, _⟩ := delStep_shape env s k
    obtain ⟨t', ht, hall⟩ := ih (delStep env s k)
    refine ⟨Δ ++ t', by rw [ht, hΔ, List.append_assoc], ?_⟩
    intro e he
    rcases List.mem_append.mp he with h | h
    · obtain ⟨ok, hok, _⟩ := hmem e h
      exact ⟨k, ok, hok⟩
    · exact hall e h

theorem delFold_desired (env : Env) :
    ∀ (l : List RuleKey) (s : SyncSt),
      (List.foldl (delStep env) s l).desired = s.desired := by
  intro l
  induction l with
  | nil => intro s; rfl
  | cons k l ih =>
    intro s
    rw [List.foldl_cons, ih (delStep env s k)]
    exact (delStep_shape env s k).choose_spec.2.2.1

theorem delFold_no_del (env : Env) {k' : RuleKey} :
    ∀ (l : List RuleKey) (s : SyncSt), k' ∈ s.desired →
      (∀ ok, FwEvent.del k' ok ∉ s.trace) →
        ∀ ok, FwEvent.del k' ok ∉ (List.foldl (delStep env) s l).trace := by
  intro l
  induction l with
  | nil => intro s _ h ok; exact h ok
  | cons k l ih =>
    intro s hd h ok
    rw [List.foldl_cons]
    obtain ⟨Δ, hΔ, hmem, hdes, _⟩ := delStep_shape env s k
    refine ih (delStep env s k) (by rw [hdes]; exact hd) ?_ ok
    intro ok' hc
    rw [hΔ, List.mem_append] at hc
    rcases hc with hc | hc
    · exact h ok' hc
    · obtain ⟨ok'', hok, hnd⟩ := hmem _ hc
      rw [FwEvent.del.injEq] at hok
      rw [← hok.1] at hnd
      exact hnd hd

theorem delFold_live_keep (env : Env) {k' : RuleKey} :
    ∀ (l : List RuleKey) (s : SyncSt), k' ∈ s.desired → k' ∈ s.live →
      k' ∈ (List.foldl (delStep env) s l).live := by
  intro l
  induction l with
  | nil => intro s _ h; exact h
  | cons k l ih =>
    intro s hd hl
    rw [List.foldl_cons]
    obtain ⟨_, _, _, hdes, _⟩ := delStep_shape env s k
    refine ih (delStep env s k) (by rw [hdes]; exact hd) ?_
    by_cases h : k ∈ s.desired
    · rw [delStep_eq_skip env s k h]
      exact hl
    · by_cases hdel : env.delOk k = true
      · rw [delStep_eq_ok env s k h hdel]
        refine Finset.mem_erase.mpr ⟨?_, hl⟩
        intro he
        rw [he] at hd
        exact h hd
      · rw [Bool.not_eq_true] at hdel
        rw [delStep_eq_fail env s k h hdel]
        exact hl

theorem delFold_live_sub (env : Env) :
    ∀ (l : List RuleKey) (s : SyncSt),
      (List.foldl (delStep env) s l).live ⊆ s.live := by
  intro l
  induction l with
  | nil => intro s; exact fun x hx => hx
  | cons k l ih =>
    intro s
    rw [List.foldl_cons]
    obtain ⟨_, _, _, _, hsub⟩ := delStep_shape env s k
    exact fun x hx => hsub (ih (delStep env s k) hx)

theorem delFold_skip_all (env : Env) :
    ∀ (l : List RuleKey) (s : SyncSt), (∀ k ∈ l, k ∈ s.desired) →
      List.foldl (delStep env) s l = s := by
  intro l
  induction l with
  | nil => intro s _; rfl
  | cons k l ih =>
    intro s h
    rw [List.foldl_cons, delStep_eq_skip env s k (h k (List.mem_cons_self k l)),
      ih s (fun k' hk' => h k' (List.mem_cons_of_mem k hk'))]

theorem delFold_live_iff (env : Env) (hDel : ∀ k, env.delOk k = true) :
    ∀ (l : List RuleKey) (s : SyncSt) (k' : RuleKey),
      k' ∈ (List.foldl (delStep env) s l).live ↔
        k' ∈ s.live ∧ (k' ∈ s.desired ∨ k' ∉ l) := by
  intro l
  induction l with
  | nil => intro s k'; simp
  | cons k l ih =>
    intro s k'
    rw [List.foldl_cons, ih (delStep env s k) k']
    obtain ⟨_, _, _, hdes, _⟩ := delStep_shape env s k
    rw [hdes]
    by_cases h : k ∈ s.desired
    · rw [delStep_eq_skip env s k h]
      constructor
      · rintro ⟨h1, h2 | h2⟩
        · exact ⟨h1, Or.inl h2⟩
        · by_cases he : k' = k
          · exact ⟨h1, Or.inl (by rw [he]; exact h)⟩
          · refine ⟨h1, Or.inr ?_⟩
            rw [List.mem_cons]
            tauto
      · rintro ⟨h1, h2 | h2⟩
        · exact ⟨h1, Or.inl h2⟩
        · rw [List.mem_cons] at h2
          exact ⟨h1, Or.inr (fun hc => h2 (Or.inr hc))⟩
    · rw [delStep_eq_ok env s k h (hDel k)]
      simp only [Finset.mem_erase]
      constructor
      · rintro ⟨⟨hne, h1⟩, h2 | h2⟩
        · exact ⟨h1, Or.inl h2⟩
        · refine ⟨h1, Or.inr ?_⟩
          rw [List.mem_cons]
          tauto
      · rintro ⟨h1, h2 | h2⟩
        · refine ⟨⟨?_, h1⟩, Or.inl h2⟩
          intro he
          rw [he] at h2
          exact h h2
        · rw [List.mem_cons] at h2
          exact ⟨⟨fun hc => h2 (Or.inl hc), h1⟩, Or.inr (fun hc => h2 (Or.inr hc))⟩

-- ===========================================================================
-- Resolve-phase characterization
-- ===========================================================================

theorem resolveFold_queue (env : Env) (ex : Finset RuleKey) :
    ∀ (es : List DdnsEntry) (d : Finset RuleKey) (q : List RuleKey),
      (List.foldl (resolveStep env ex) (d, q) es).2 = q ++ es.filterMap (queueSel env ex) := by
  intro es
  induction es with
  | nil => intro d q; simp
  | cons e es ih =>
    intro d q
    rw [List.foldl_cons, List.filterMap_cons]
    cases hres : env.resolve e.hostname with
    | none =>
      rw [queueSel]
      rw [hres]
      simp only [resolveStep, hres]
      rw [ih]
    | some ip =>
      rw [queueSel]
      rw [hres]
      simp only [resolveStep, hres]
      by_cases h1 : (ip, e.port) ∈ ex
      · simp only [if_pos h1]
        rw [ih]
      · by_cases h2 : env.ruleExists (ip, e.port) = true
        · simp only [if_neg h1, if_pos h2]
          rw [ih]
        · rw [Bool.not_eq_true] at h2
          simp only [if_neg h1, h2, Bool.false_eq_true, if_false]
          rw [ih]
          rw [List.append_cons, List.append_assoc]
          simp

theorem queueSel_some (env : Env) (ex : Finset RuleKey) {e : DdnsEntry} {k : RuleKey}
    (h : queueSel env ex e = some k) :
    env.resolve e.hostname = some k.1 ∧ e.port = k.2 ∧ k ∉ ex ∧
      env.ruleExists k = false := by
  cases hres : env.resolve e.hostname with
  | none => simp [queueSel, hres] at h
  | some ip =>
    simp only [queueSel, hres] at h
    by_cases h1 : (ip, e.port) ∈ ex
    · rw [if_pos h1] at h; cases h
    · rw [if_neg h1] at h
      by_cases h2 : env.ruleExists (ip, e.port) = true
      · rw [if_pos h2] at h; cases h
      · rw [Bool.not_eq_true] at h2
        rw [h2, if_neg Bool.false_ne_true] at h
        rw [Option.some.injEq] at h
        subst h
        exact ⟨rfl, rfl, h1, h2⟩

theorem resolveStep_desired_mono (env : Env) (ex : Finset RuleKey)
    (acc : Finset RuleKey × List RuleKey) (e : DdnsEntry) :
    acc.1 ⊆ (resolveStep env ex acc e).1 := by
  rw [resolveStep]
  cases env.resolve e.hostname with
  | none => exact Finset.subset_union_left
  | some ip => exact Finset.subset_insert _ _

theorem resolveFold_desired_mono (env : Env) (ex : Finset RuleKey) :
    ∀ (es : List DdnsEntry) (acc : Finset RuleKey × List RuleKey),
      acc.1 ⊆ (List.foldl (resolveStep env ex) acc es).1 := by
  intro es
  induction es with
  | nil => intro acc; exact fun x hx => hx
  | cons e es ih =>
    intro acc
    rw [List.foldl_cons]
    exact fun x hx => ih (resolveStep env ex acc e) (resolveStep_desired_mono env ex acc e hx)

theorem resolveFold_fallback (env : Env) (ex : Finset RuleKey) :
    ∀ (es : List DdnsEntry) (acc : Finset RuleKey × List RuleKey) (e : DdnsEntry)
      (k : RuleKey), e ∈ es → env.resolve e.hostname = none → k ∈ ex → k.2 = e.port →
        k ∈ (List.foldl (resolveStep env ex) acc es).1 := by
  intro es
  induction es with
  | nil => intro acc e k h; cases h
  | cons e0 es ih =>
    intro acc e k hmem hres hex hport
    rw [List.foldl_cons]
    rcases List.mem_cons.mp hmem with he | he
    · refine resolveFold_desired_mono env ex es _ ?_
      rw [he] at hres hport
      simp only [resolveStep, hres]
      exact Finset.mem_union_right _ (Finset.mem_filter.mpr ⟨hex, hport⟩)
    · exact ih _ e k he hres hex hport

theorem resolveFold_success (env : Env) (ex : Finset RuleKey) :
    ∀ (es : List DdnsEntry) (acc : Finset RuleKey × List RuleKey) (e : DdnsEntry)
      (ip : Ipv4), e ∈ es → env.resolve e.hostname = some ip →
        (ip, e.port) ∈ (List.foldl (resolveStep env ex) acc es).1 := by
  intro es
  induction es with
  | nil => intro acc e ip h; cases h
  | cons e0 es ih =>
    intro acc e ip hmem hres
    rw [List.foldl_cons]
    rcases List.mem_cons.mp hmem with he | he
    · rw [he] at hres ⊢
      refine resolveFold_desired_mono env ex es _ ?_
      simp only [resolveStep, hres]
      exact Finset.mem_insert_self _ _
    · exact ih _ e ip he hres

theorem resolveFold_desired_src (env : Env) (ex : Finset RuleKey) :
    ∀ (es : List DdnsEntry) (acc : Finset RuleKey × List RuleKey) (k : RuleKey),
      k ∈ (List.foldl (resolveStep env ex) acc es).1 → k ∈ acc.1 ∨
        ∃ e ∈ es, (env.resolve e.hostname = some k.1 ∧ e.port = k.2) ∨
          (env.resolve e.hostname = none ∧ k ∈ ex ∧ e.port = k.2) := by
  intro es
  induction es with
  | nil => intro acc k h; exact Or.inl h
  | cons e es ih =>
    intro acc k h
    rw [List.foldl_cons] at h
    rcases ih (resolveStep env ex acc e) k h with h1 | ⟨e', he', hcase⟩
    · cases hres : env.resolve e.hostname with
      | none =>
        simp only [resolveStep, hres] at h1
        rcases Finset.mem_union.mp h1 with h2 | h2
        · exact Or.inl h2
        · obtain ⟨hex, hport⟩ := Finset.mem_filter.mp h2
          exact Or.inr ⟨e, List.mem_cons_self e es, Or.inr ⟨hres, hex, hport.symm⟩⟩
      | some ip =>
        simp only [resolveStep, hres] at h1
        rcases Finset.mem_insert.mp h1 with h2 | h2
        · subst h2
          exact Or.inr ⟨e, List.mem_cons_self e es, Or.inl ⟨hres, rfl⟩⟩
        · exact Or.inl h2
    · exact Or.inr ⟨e', List.mem_cons_of_mem e he', hcase⟩

-- ===========================================================================
-- Bounds of the config parser and the listing parser
-- ===========================================================================

theorem parseConfigGo_len : ∀ (lines : List (List Char)) (iter : Nat) (acc : List DdnsEntry),
    acc.length ≤ MAX_ENTRIES → (parseConfigGo iter acc lines).1.length ≤ MAX_ENTRIES := by
  intro lines
  induction lines with
  | nil => intro iter acc h; exact h
  | cons l rest ih =>
    intro iter acc h
    rw [parseConfigGo]
    by_cases h1 : iter + 1 > MAX_LOOP_ITERATIONS
    · rw [if_pos h1]; exact h
    · rw [if_neg h1]
      by_cases h2 : acc.length ≥ MAX_ENTRIES
      · rw [if_pos h2]; exact h
      · rw [if_neg h2]
        cases parseConfigLine l with
        | none => exact ih (iter + 1) acc h
        | some e =>
          refine ih (iter + 1) (acc ++ [e]) ?_
          rw [List.length_append, List.length_singleton]
          omega

theorem parse_config_len (lines : List (List Char)) :
    (parse_config lines).1.length ≤ MAX_ENTRIES :=
  parseConfigGo_len lines 0 [] (by simp [MAX_ENTRIES])

theorem parseConfigGo_take : ∀ (lines : List (List Char)) (iter : Nat) (acc : List DdnsEntry),
    (parseConfigGo iter acc lines).1 =
      (parseConfigGo iter acc (lines.take (MAX_LOOP_ITERATIONS - iter))).1 := by
  intro lines
  induction lines with
  | nil => intro iter acc; rw [List.take_nil]
  | cons l rest ih =>
    intro iter acc
    by_cases hi : MAX_LOOP_ITERATIONS - iter = 0
    · have hcond : iter + 1 > MAX_LOOP_ITERATIONS := by omega
      have hl : parseConfigGo iter acc (l :: rest) = (acc, [Warn.configTooLarge]) := by
        rw [parseConfigGo, if_pos hcond]
      rw [hi, List.take_zero, hl]
      rfl
    · obtain ⟨m, hm⟩ : ∃ m, MAX_LOOP_ITERATIONS - iter = m + 1 :=
        ⟨MAX_LOOP_ITERATIONS - iter - 1, by omega⟩
      rw [hm, List.take_succ_cons, parseConfigGo, parseConfigGo]
      by_cases h1 : iter + 1 > MAX_LOOP_ITERATIONS
      · rw [if_pos h1, if_pos h1]
      · rw [if_neg h1, if_neg h1]
        by_cases h2 : acc.length ≥ MAX_ENTRIES
        · rw [if_pos h2, if_pos h2]
        · rw [if_neg h2, if_neg h2]
          have hm' : MAX_LOOP_ITERATIONS - (iter + 1) = m := by omega
          cases parseConfigLine l with
          | none => rw [ih (iter + 1) acc, hm']
          | some e => rw [ih (iter + 1) (acc ++ [e]), hm']

theorem parseConfigGo_warn : ∀ (lines : List (List Char)) (iter : Nat) (acc : List DdnsEntry),
    iter ≤ MAX_LOOP_ITERATIONS → iter + lines.length > MAX_LOOP_ITERATIONS →
      (parseConfigGo iter acc lines).2 ≠ [] := by
  intro lines
  induction lines with
  | nil =>
    intro iter acc h1 h2
    rw [List.length_nil] at h2
    exact False.elim (by omega)
  | cons l rest ih =>
    intro iter acc h1 h2
    rw [parseConfigGo]
    by_cases hc1 : iter + 1 > MAX_LOOP_ITERATIONS
    · rw [if_pos hc1]; simp
    · rw [if_neg hc1]
      by_cases hc2 : acc.length ≥ MAX_ENTRIES
      · rw [if_pos hc2]; simp
      · rw [if_neg hc2]
        have hnext : iter + 1 ≤ MAX_LOOP_ITERATIONS := by omega
        have hlen : iter + 1 + rest.length > MAX_LOOP_ITERATIONS := by
          rw [List.length_cons] at h2
          omega
        cases parseConfigLine l with
        | none => exact ih (iter + 1) acc hnext hlen
        | some e => exact ih (iter + 1) (acc ++ [e]) hnext hlen

theorem getRulesGo_len : ∀ (lines : List (List Char)) (iter : Nat) (acc : List RuleKey),
    acc.length ≤ MAX_RULES → (getRulesGo iter acc lines).1.length ≤ MAX_RULES := by
  intro lines
  induction lines with
  | nil => intro iter acc h; exact h
  | cons l rest ih =>
    intro iter acc h
    rw [getRulesGo]
    by_cases h1 : iter + 1 > MAX_LOOP_ITERATIONS
    · rw [if_pos h1]; exact h
    · rw [if_neg h1]
      by_cases hcm : ¬ occursIn iptablesComment l = true
      · rw [if_pos hcm]; exact ih (iter + 1) acc h
      · rw [if_neg hcm]
        by_cases h2 : acc.length ≥ MAX_RULES
        · rw [if_pos h2]; exact h
        · rw [if_neg h2]
          cases scanRuleLine l with
          | none => exact ih (iter + 1) acc h
          | some k =>
            refine ih (iter + 1) _ ?_
            by_cases hk : k ∈ acc
            · rw [if_pos hk]; exact h
            · rw [if_neg hk, List.length_append, List.length_singleton]
              omega

theorem get_existing_rules_len (lines : List (List Char)) :
    (get_existing_rules lines).1.length ≤ MAX_RULES :=
  getRulesGo_len lines 0 [] (by simp [MAX_RULES])

theorem getRulesGo_take : ∀ (lines : List (List Char)) (iter : Nat) (acc : List RuleKey),
    (getRulesGo iter acc lines).1 =
      (getRulesGo iter acc (lines.take (MAX_LOOP_ITERATIONS - iter))).1 := by
  intro lines
  induction lines with
  | nil => intro iter acc; rw [List.take_nil]
  | cons l rest ih =>
    intro iter acc
    by_cases hi : MAX_LOOP_ITERATIONS - iter = 0
    · have hcond : iter + 1 > MAX_LOOP_ITERATIONS := by omega
      have hl : getRulesGo iter acc (l :: rest) = (acc, [Warn.tooManyRules]) := by
        rw [getRulesGo, if_pos hcond]
      rw [hi, List.take_zero, hl]
      rfl
    · obtain ⟨m, hm⟩ : ∃ m, MAX_LOOP_ITERATIONS - iter = m + 1 :=
        ⟨MAX_LOOP_ITERATIONS - iter - 1, by omega⟩
      rw [hm, List.take_succ_cons, getRulesGo, getRulesGo]
      by_cases h1 : iter + 1 > MAX_LOOP_ITERATIONS
      · rw [if_pos h1, if_pos h1]
      · rw [if_neg h1, if_neg h1]
        have hm' : MAX_LOOP_ITERATIONS - (iter + 1) = m := by omega
        by_cases hcm : ¬ occursIn iptablesComment l = true
        · rw [if_pos hcm, if_pos hcm, ih (iter + 1) acc, hm']
        · rw [if_neg hcm, if_neg hcm]
          by_cases h2 : acc.length ≥ MAX_RULES
          · rw [if_pos h2, if_pos h2]
          · rw [if_neg h2, if_neg h2]
            cases scanRuleLine l with
            | none => rw [ih (iter + 1) acc, hm']
            | some k => rw [ih (iter + 1) _, hm']

theorem getRulesGo_warn : ∀ (lines : List (List Char)) (iter : Nat) (acc : List RuleKey),
    iter ≤ MAX_LOOP_ITERATIONS → iter + lines.length > MAX_LOOP_ITERATIONS →
      acc.length ≤ MAX_RULES →
      (getRulesGo iter acc lines).2 ≠ [] ∨ (getRulesGo iter acc lines).1.length = MAX_RULES := by
  intro lines
  induction lines with
  | nil =>
    intro iter acc h1 h2 _
    rw [List.length_nil] at h2
    exact False.elim (by omega)
  | cons l rest ih =>
    intro iter acc h1 h2 h3
    rw [getRulesGo]
    by_cases hc1 : iter + 1 > MAX_LOOP_ITERATIONS
    · rw [if_pos hc1]; left; simp
    · rw [if_neg hc1]
      have hnext : iter + 1 ≤ MAX_LOOP_ITERATIONS := by omega
      have hlen : iter + 1 + rest.length > MAX_LOOP_ITERATIONS := by
        rw [List.length_cons] at h2
        omega
      by_cases hcm : ¬ occursIn iptablesComment l = true
      · rw [if_pos hcm]; exact ih (iter + 1) acc hnext hlen h3
      · rw [if_neg hcm]
        by_cases h4 : acc.length ≥ MAX_RULES
        · rw [if_pos h4]
          right
          show acc.length = MAX_RULES
          omega
        · rw [if_neg h4]
          cases scanRuleLine l with
          | none => exact ih (iter + 1) acc hnext hlen h3
          | some k =>
            refine ih (iter + 1) _ hnext hlen ?_
            by_cases hk : k ∈ acc
            · rw [if_pos hk]; exact h3
            · rw [if_neg hk, List.length_append, List.length_singleton]
              omega

-- ===========================================================================
-- Recovery and run-level lemmas
-- ===========================================================================

theorem recoverMaybe_idle (env : Env) (c : Cache) :
    (recoverMaybe env c).1.state = CacheState.Idle := by
  rw [recoverMaybe]
  by_cases h : c.state = CacheState.Idle
  · rw [if_neg (not_not_intro h)]
    exact h
  · rw [if_pos h]
    obtain ⟨st, ru, pe⟩ := c
    cases st with
    | Idle => exact absurd rfl h
    | Adding =>
      cases pe with
      | some k =>
        by_cases he : env.ruleExists k = true
        · simp [recover_from_crash, he, Cache.add_rule]
        · rw [Bool.not_eq_true] at he
          by_cases ha : env.addOk k 0 = true
          · simp [recover_from_crash, he, ha, Cache.add_rule]
          · rw [Bool.not_eq_true] at ha
            simp [recover_from_crash, he, ha, Cache.set_idle]
      | none => simp [recover_from_crash, Cache.set_idle]
    | Deleting => simp [recover_from_crash, Cache.set_idle]

theorem recoverMaybe_trace_adds (env : Env) (c : Cache) :
    ∀ e ∈ (recoverMaybe env c).2.1, ∃ k ok, e = FwEvent.add k ok := by
  rw [recoverMaybe]
  by_cases h : c.state = CacheState.Idle
  · rw [if_neg (not_not_intro h)]
    intro e he
    cases he
  · rw [if_pos h]
    obtain ⟨st, ru, pe⟩ := c
    cases st with
    | Idle => intro e he; cases he
    | Adding =>
      cases pe with
      | some k =>
        by_cases he : env.ruleExists k = true
        · simp [recover_from_crash, he]
        · rw [Bool.not_eq_true] at he
          by_cases ha : env.addOk k 0 = true
          · simp [recover_from_crash, he, ha]
            exact ⟨k.1, k.2, rfl⟩
          · rw [Bool.not_eq_true] at ha
            simp [recover_from_crash, he, ha]
            exact ⟨k.1, k.2, rfl⟩
      | none => simp [recover_from_crash]
    | Deleting => simp [recover_from_crash]

theorem recoverMaybe_fail_no_true (env : Env) (c : Cache) {k0 : RuleKey}
    (hfail : ∀ n, env.addOk k0 n = false) :
    FwEvent.add k0 true ∉ (recoverMaybe env c).2.1 := by
  rw [recoverMaybe]
  by_cases h : c.state = CacheState.Idle
  · rw [if_neg (not_not_intro h)]
    intro he
    cases he
  · rw [if_pos h]
    obtain ⟨st, ru, pe⟩ := c
    cases st with
    | Idle => intro he; cases he
    | Adding =>
      cases pe with
      | some k =>
        by_cases he : env.ruleExists k = true
        · simp [recover_from_crash, he]
        · rw [Bool.not_eq_true] at he
          by_cases ha : env.addOk k 0 = true
          · simp only [recover_from_crash, he, Bool.false_eq_true, if_false, ha, if_true]
            intro hc
            rcases List.mem_singleton.mp hc with hc2
            rw [FwEvent.add.injEq] at hc2
            rw [hc2.1] at hfail
            rw [hfail 0] at ha
            cases ha
          · rw [Bool.not_eq_true] at ha
            simp [recover_from_crash, he, ha]
      | none => simp [recover_from_crash]
    | Deleting => simp [recover_from_crash]

theorem runSync_empty (env : Env) (c0 : Cache) (listing : List RuleKey)
    (cfg : List (List Char)) (h : (parse_config cfg).1 = []) :
    runSync env c0 listing cfg =
      { trace := (recoverMaybe env c0).2.1, saves := (recoverMaybe env c0).2.2,
        live := listing.toFinset, desired := ∅, cacheEnd := (recoverMaybe env c0).1,
        listed := false } := by
  rw [runSync, if_pos h]

theorem runSync_nonempty (env : Env) (c0 : Cache) (listing : List RuleKey)
    (cfg : List (List Char)) (h : (parse_config cfg).1 ≠ []) :
    runSync env c0 listing cfg =
      { trace := (reconcileOf env c0 listing cfg).trace,
        saves := (reconcileOf env c0 listing cfg).saves,
        live := (reconcileOf env c0 listing cfg).live,
        desired := (reconcileOf env c0 listing cfg).desired,
        cacheEnd := (reconcileOf env c0 listing cfg).cache,
        listed := true } := by
  rw [runSync, if_neg h]

theorem get_append_mem_left {α : Type _} :
    ∀ (A D : List α) (i : Nat) (hA : i < A.length) (h : i < (A ++ D).length),
      (A ++ D).get ⟨i, h⟩ ∈ A := by
  intro A
  induction A with
  | nil => intro D i hA; simp at hA
  | cons a A ih =>
    intro D i hA h
    cases i with
    | zero => simp
    | succ j =>
      rw [List.length_cons] at hA
      right
      exact ih D j (by omega) _

theorem get_append_mem_right {α : Type _} :
    ∀ (A D : List α) (i : Nat) (hA : A.length ≤ i) (h : i < (A ++ D).length),
      (A ++ D).get ⟨i, h⟩ ∈ D := by
  intro A
  induction A with
  | nil => intro D i _ h; exact List.get_mem D i h
  | cons a A ih =>
    intro D i hA h
    cases i with
    | zero => rw [List.length_cons] at hA; omega
    | succ j =>
      rw [List.length_cons] at hA
      exact ih D j (by omega) _

theorem adds_before_dels {t A D : List FwEvent} (ht : t = A ++ D)
    (hA : ∀ e ∈ A, isAddE e = true) (hD : ∀ e ∈ D, isDelE e = true)
    {i j : Nat} (hi : i < t.length) (hj : j < t.length)
    (ha : isAddE (t.get ⟨i, hi⟩) = true) (hd : isDelE (t.get ⟨j, hj⟩) = true) : i < j := by
  subst ht
  have hnot : ∀ e : FwEvent, isAddE e = true → isDelE e = true → False := by
    intro e h1 h2
    cases e with
    | add k ok => rw [isDelE] at h2; cases h2
    | del k ok => rw [isAddE] at h1; cases h1
  have hiA : i < A.length := by
    by_contra hc
    rw [Nat.not_lt] at hc
    exact hnot _ ha (hD _ (get_append_mem_right A D i hc hi))
  have hjA : A.length ≤ j := by
    by_contra hc
    rw [Nat.not_le] at hc
    exact hnot _ (hA _ (get_append_mem_left A D j hc hj)) hd
  omega

theorem isAddE_add (k : RuleKey) (ok : Bool) : isAddE (FwEvent.add k ok) = true := rfl

theorem isDelE_del (k : RuleKey) (ok : Bool) : isDelE (FwEvent.del k ok) = true := rfl

theorem addSt_eq (env : Env) (c0 : Cache) (rT : List FwEvent) (rS : List Cache)
    (entries : List DdnsEntry) (listing : List RuleKey) :
    addSt env c0 rT rS entries listing =
      List.foldl (addStep env listing.toFinset) (resolveSt env c0 rT rS entries listing)
        ((resolvePhase env listing.toFinset entries).2.take MAX_LOOP_ITERATIONS) := rfl

theorem delSt_eq (env : Env) (c0 : Cache) (rT : List FwEvent) (rS : List Cache)
    (entries : List DdnsEntry) (listing : List RuleKey) :
    delSt env c0 rT rS entries listing =
      List.foldl (delStep env) (addSt env c0 rT rS entries listing)
        (listing.take MAX_LOOP_ITERATIONS) := rfl

theorem addSt_trace_adds (env : Env) (c0 : Cache) (rT : List FwEvent) (rS : List Cache)
    (entries : List DdnsEntry) (listing : List RuleKey)
    (hrT : ∀ e ∈ rT, ∃ k ok, e = FwEvent.add k ok) :
    ∀ e ∈ (addSt env c0 rT rS entries listing).trace, ∃ k ok, e = FwEvent.add k ok := by
  obtain ⟨aΔ, ha, haMem⟩ := addFold_trace env listing.toFinset
    ((resolvePhase env listing.toFinset entries).2.take MAX_LOOP_ITERATIONS)
    (resolveSt env c0 rT rS entries listing)
  rw [addSt_eq, ha]
  intro e he
  rcases List.mem_append.mp he with h | h
  · exact hrT e h
  · obtain ⟨k, ok, hok, _⟩ := haMem e h
    exact ⟨k, ok, hok⟩

theorem no_del_of_all_adds {t : List FwEvent} (h : ∀ e ∈ t, ∃ k ok, e = FwEvent.add k ok)
    (r : RuleKey) (ok : Bool) : FwEvent.del r ok ∉ t := by
  intro hc
  obtain ⟨k, ok', hk⟩ := h _ hc
  cases hk

theorem reconcile_trace_split (env : Env) (c0 : Cache) (listing : List RuleKey)
    (cfg : List (List Char)) :
    ∃ A D, (reconcileOf env c0 listing cfg).trace = A ++ D ∧
      (∀ e ∈ A, isAddE e = true) ∧ (∀ e ∈ D, isDelE e = true) := by
  obtain ⟨dΔ, hd, hdMem⟩ := delFold_trace env (listing.take MAX_LOOP_ITERATIONS)
    (addSt env (recoverMaybe env c0).1 (recoverMaybe env c0).2.1 (recoverMaybe env c0).2.2
      (parse_config cfg).1 listing)
  refine ⟨(addSt env (recoverMaybe env c0).1 (recoverMaybe env c0).2.1
    (recoverMaybe env c0).2.2 (parse_config cfg).1 listing).trace, dΔ, ?_, ?_, ?_⟩
  · show (delSt env (recoverMaybe env c0).1 (recoverMaybe env c0).2.1
      (recoverMaybe env c0).2.2 (parse_config cfg).1 listing).trace = _
    rw [delSt_eq]
    exact hd
  · intro e he
    obtain ⟨k, ok, hk⟩ := addSt_trace_adds env (recoverMaybe env c0).1
      (recoverMaybe env c0).2.1 (recoverMaybe env c0).2.2 (parse_config cfg).1 listing
      (recoverMaybe_trace_adds env c0) e he
    rw [hk]
    rfl
  · intro e he
    obtain ⟨k, ok, hk⟩ := hdMem e he
    rw [hk]
    rfl

theorem runSync_trace_split (env : Env) (c0 : Cache) (listing : List RuleKey)
    (cfg : List (List Char)) :
    ∃ A D, (runSync env c0 listing cfg).trace = A ++ D ∧
      (∀ e ∈ A, isAddE e = true) ∧ (∀ e ∈ D, isDelE e = true) := by
  by_cases h : (parse_config cfg).1 = []
  · rw [runSync_empty env c0 listing cfg h]
    refine ⟨(recoverMaybe env c0).2.1, [], (List.append_nil _).symm, ?_, ?_⟩
    · intro e he
      obtain ⟨k, ok, hk⟩ := recoverMaybe_trace_adds env c0 e he
      rw [hk]
      rfl
    · intro e he
      cases he
  · rw [runSync_nonempty env c0 listing cfg h]
    exact reconcile_trace_split env c0 listing cfg

theorem addFold_live_mono (env : Env) (ex : Finset RuleKey) :
    ∀ (l : List RuleKey) (s : SyncSt), s.live ⊆ (List.foldl (addStep env ex) s l).live := by
  intro l
  induction l with
  | nil => intro s; exact fun x hx => hx
  | cons k l ih =>
    intro s
    rw [List.foldl_cons]
    obtain ⟨_, _, _, _, _, hlive⟩ := addStep_shape env ex s k
    intro x hx
    refine ih (addStep env ex s k) ?_
    rcases hlive with h | h
    · rw [h]
      exact Finset.mem_insert_of_mem hx
    · rw [h]
      exact hx

theorem resolveQueue_len (env : Env) (ex : Finset RuleKey) (entries : List DdnsEntry) :
    (resolvePhase env ex entries).2.length ≤ MAX_LOOP_ITERATIONS := by
  rw [resolvePhase, resolveFold_queue]
  rw [List.nil_append]
  calc ((entries.take MAX_LOOP_ITERATIONS).filterMap (queueSel env ex)).length ≤
      (entries.take MAX_LOOP_ITERATIONS).length := List.length_filterMap_le _ _
  _ ≤ MAX_LOOP_ITERATIONS := List.length_take_le _ _

theorem resolveQueue_take (env : Env) (ex : Finset RuleKey) (entries : List DdnsEntry) :
    (resolvePhase env ex entries).2.take MAX_LOOP_ITERATIONS =
      (resolvePhase env ex entries).2 :=
  take_of_len_le _ _ (resolveQueue_len env ex entries)

/-- Claim C1: within a single run every `addRule` call (recovery, first
attempt, retry) is issued strictly before any `deleteRule` call, and when
every add attempt for a queued key fails, no `deleteRule` is ever issued
for any rule of that key's port that was in the listing at the start of
the run. -/
theorem sync_adds_before_deletes (env : Env) (c0 : Cache) (listing : List RuleKey)
    (cfg : List (List Char)) :
    (∀ (i j : Nat) (hi : i < (runSync env c0 listing cfg).trace.length)
        (hj : j < (runSync env c0 listing cfg).trace.length),
        isAddE ((runSync env c0 listing cfg).trace.get ⟨i, hi⟩) = true →
          isDelE ((runSync env c0 listing cfg).trace.get ⟨j, hj⟩) = true → i < j) ∧
      (∀ k : RuleKey, (∀ n, env.addOk k n = false) →
        k ∈ (resolvePhase env listing.toFinset (parse_config cfg).1).2 →
          ∀ r ∈ listing, r.2 = k.2 → ∀ ok,
            FwEvent.del r ok ∉ (runSync env c0 listing cfg).trace) := by
  constructor
  · intro i j hi hj ha hd
    obtain ⟨A, D, ht, hA, hD⟩ := runSync_trace_split env c0 listing cfg
    exact adds_before_dels ht hA hD hi hj ha hd
  · intro k hfail hq r hr hport ok
    by_cases h : (parse_config cfg).1 = []
    · rw [h] at hq
      simp [resolvePhase] at hq
    · rw [runSync_nonempty env c0 listing cfg h]
      show FwEvent.del r ok ∉ (delSt env (recoverMaybe env c0).1 (recoverMaybe env c0).2.1
        (recoverMaybe env c0).2.2 (parse_config cfg).1 listing).trace
      rw [delSt_eq]
      refine delFold_no_del env _ _ ?_ ?_ ok
      · rw [addSt_eq]
        refine addFold_fail_desired env listing.toFinset hfail _ _ ?_
          (Finset.mem_filter.mpr ⟨List.mem_toFinset.mpr hr, hport⟩)
        rw [resolveQueue_take]
        exact hq
      · intro ok'
        exact no_del_of_all_adds
          (addSt_trace_adds env (recoverMaybe env c0).1 (recoverMaybe env c0).2.1
            (recoverMaybe env c0).2.2 (parse_config cfg).1 listing
            (recoverMaybe_trace_adds env c0)) r ok'

/-- Witness for claim C1: a run with one successful add and one delete has
the add at index 0 and the delete at index 1; with failing adds, the
pre-existing rule of the same port is never deleted. -/
theorem sync_adds_before_deletes_witness :
    (0 : Nat) < 1 ∧
      FwEvent.del key6_22 true ∉ (runSync envAllFail Cache.new [key6_22] cfgH22).trace :=
  ⟨(sync_adds_before_deletes envAllOk Cache.new [key6_80] cfgH22).1 0 1 (by decide)
      (by decide) (by decide) (by decide),
    (sync_adds_before_deletes envAllFail Cache.new [key6_22] cfgH22).2 key5_22
      (fun _ => rfl) (by decide) key6_22 (by decide) (by decide) true⟩

/-- Claim C2: for every config entry whose resolution returns no result,
every listed rule key of that entry's port is put into the desired set, no
`deleteRule` is issued for it, and it is still in the live rule set at the
end of the run. -/
theorem resolution_failure_preserves_port_rules (env : Env) (c0 : Cache)
    (listing : List RuleKey) (cfg : List (List Char)) (e : DdnsEntry)
    (he : e ∈ (parse_config cfg).1) (hres : env.resolve e.hostname = none) :
    ∀ k ∈ listing, k.2 = e.port →
      k ∈ (runSync env c0 listing cfg).desired ∧
        (∀ ok, FwEvent.del k ok ∉ (runSync env c0 listing cfg).trace) ∧
          k ∈ (runSync env c0 listing cfg).live := by
  intro k hk hport
  have hnem : (parse_config cfg).1 ≠ [] := by
    intro hc
    rw [hc] at he
    cases he
  have htake : (parse_config cfg).1.take MAX_LOOP_ITERATIONS = (parse_config cfg).1 :=
    take_of_len_le _ _ (le_trans (parse_config_len cfg) (by decide))
  have hdes1 : k ∈ (resolvePhase env listing.toFinset (parse_config cfg).1).1 := by
    rw [resolvePhase]
    refine resolveFold_fallback env listing.toFinset _ _ e k ?_ hres
      (List.mem_toFinset.mpr hk) hport
    rw [htake]
    exact he
  have hdes2 : k ∈ (addSt env (recoverMaybe env c0).1 (recoverMaybe env c0).2.1
      (recoverMaybe env c0).2.2 (parse_config cfg).1 listing).desired := by
    rw [addSt_eq]
    exact addFold_desired_mono env listing.toFinset _ _ hdes1
  rw [runSync_nonempty env c0 listing cfg hnem]
  refine ⟨?_, ?_, ?_⟩
  · show k ∈ (delSt env (recoverMaybe env c0).1 (recoverMaybe env c0).2.1
      (recoverMaybe env c0).2.2 (parse_config cfg).1 listing).desired
    rw [delSt_eq, delFold_desired]
    exact hdes2
  · intro ok
    show FwEvent.del k ok ∉ (delSt env (recoverMaybe env c0).1 (recoverMaybe env c0).2.1
      (recoverMaybe env c0).2.2 (parse_config cfg).1 listing).trace
    rw [delSt_eq]
    refine delFold_no_del env _ _ hdes2 ?_ ok
    intro ok'
    exact no_del_of_all_adds
      (addSt_trace_adds env (recoverMaybe env c0).1 (recoverMaybe env c0).2.1
        (recoverMaybe env c0).2.2 (parse_config cfg).1 listing
        (recoverMaybe_trace_adds env c0)) k ok'
  · show k ∈ (delSt env (recoverMaybe env c0).1 (recoverMaybe env c0).2.1
      (recoverMaybe env c0).2.2 (parse_config cfg).1 listing).live
    rw [delSt_eq]
    refine delFold_live_keep env _ _ hdes2 ?_
    rw [addSt_eq]
    exact addFold_live_mono env listing.toFinset _ _ (List.mem_toFinset.mpr hk)

/-- Witness for claim C2: with resolution failing, the listed rule
10.0.0.6:22 for the entry's port survives the run. -/
theorem resolution_failure_preserves_witness :
    key6_22 ∈ (runSync envNoDns Cache.new [key6_22] cfgH22).desired ∧
      key6_22 ∈ (runSync envNoDns Cache.new [key6_22] cfgH22).live :=
  ⟨((resolution_failure_preserves_port_rules envNoDns Cache.new [key6_22] cfgH22
      ⟨['h'], ⟨22, by omega⟩⟩ (by decide) rfl) key6_22 (by decide) (by decide)).1,
    ((resolution_failure_preserves_port_rules envNoDns Cache.new [key6_22] cfgH22
      ⟨['h'], ⟨22, by omega⟩⟩ (by decide) rfl) key6_22 (by decide) (by decide)).2.2⟩

/-- Claim C10: with zero valid config entries the run returns right after
recovery and config parsing: the live rule set is not queried, the trace is
exactly the recovery trace (in particular no `deleteRule` is ever issued),
and the persistent state is left exactly as recovery left it, with the
saves being exactly recovery's saves. -/
theorem empty_config_early_return (env : Env) (c0 : Cache) (listing : List RuleKey)
    (cfg : List (List Char)) (h : (parse_config cfg).1 = []) :
    runSync env c0 listing cfg =
      { trace := (recoverMaybe env c0).2.1, saves := (recoverMaybe env c0).2.2,
        live := listing.toFinset, desired := ∅, cacheEnd := (recoverMaybe env c0).1,
        listed := false } ∧
      (∀ k ok, FwEvent.del k ok ∉ (runSync env c0 listing cfg).trace) := by
  refine ⟨runSync_empty env c0 listing cfg h, ?_⟩
  intro k ok
  rw [runSync_empty env c0 listing cfg h]
  exact no_del_of_all_adds (recoverMaybe_trace_adds env c0) k ok

/-- Witness for claim C10 at an empty configuration. -/
theorem empty_config_early_return_witness :
    runSync envAllOk Cache.new ([] : List RuleKey) ([] : List (List Char)) =
      { trace := (recoverMaybe envAllOk Cache.new).2.1,
        saves := (recoverMaybe envAllOk Cache.new).2.2,
        live := ([] : List RuleKey).toFinset, desired := ∅,
        cacheEnd := (recoverMaybe envAllOk Cache.new).1, listed := false } :=
  (empty_config_early_return envAllOk Cache.new ([] : List RuleKey)
    ([] : List (List Char)) (by decide)).1

theorem getLast?_append_two {α : Type _} (l : List α) (a b : α) :
    (l ++ [a, b]).getLast? = some b := by
  rw [show [a, b] = [a] ++ [b] from rfl, ← List.append_assoc, List.getLast?_concat]

/-- Claim C3: in the add phase each queued key is attempted at most twice
per queue occurrence; when both attempts fail the step persists an idle
state, records exactly the two failed calls, and copies every existing
rule of the key's port into the desired set; consequently, over a whole
run with all add attempts for the key failing, the key is absent from the
final live set and no listed rule of its port is ever deleted. -/
theorem add_retry_bound_and_fail_safe :
    (∀ (env : Env) (ex : Finset RuleKey) (s : SyncSt) (q : List RuleKey) (k : RuleKey),
        countAdds ((addPhase env ex s q).trace) k ≤ countAdds s.trace k + 2 * q.count k) ∧
      (∀ (env : Env) (ex : Finset RuleKey) (s : SyncSt) (k : RuleKey),
        (∀ n, env.addOk k n = false) →
          (addStep env ex s k).cache.state = CacheState.Idle ∧
            (addStep env ex s k).cache.pending = none ∧
            (addStep env ex s k).trace =
              s.trace ++ [FwEvent.add k false, FwEvent.add k false] ∧
            (addStep env ex s k).desired = s.desired ∪ ex.filter (fun r => r.2 = k.2) ∧
            (addStep env ex s k).saves.getLast? = some (addStep env ex s k).cache) ∧
      (∀ (env : Env) (c0 : Cache) (listing : List RuleKey) (cfg : List (List Char))
          (k : RuleKey), (∀ n, env.addOk k n = false) →
          k ∈ (resolvePhase env listing.toFinset (parse_config cfg).1).2 →
            k ∉ (runSync env c0 listing cfg).live ∧
              ∀ r ∈ listing, r.2 = k.2 →
                r ∈ (runSync env c0 listing cfg).desired ∧
                  ∀ ok, FwEvent.del r ok ∉ (runSync env c0 listing cfg).trace) := by
  refine ⟨?_, ?_, ?_⟩
  · intro env ex s q k
    rw [addPhase]
    calc countAdds ((List.foldl (addStep env ex) s (q.take MAX_LOOP_ITERATIONS)).trace) k ≤
        countAdds s.trace k + 2 * (q.take MAX_LOOP_ITERATIONS).count k :=
      addFold_countAdds env ex k _ s
    _ ≤ countAdds s.trace k + 2 * q.count k := by
        have := List.Sublist.count_le (List.take_sublist MAX_LOOP_ITERATIONS q) k
        omega
  · intro env ex s k hfail
    rw [addStep_eq_neg env ex s k (hfail _) (hfail _)]
    refine ⟨rfl, rfl, rfl, rfl, ?_⟩
    exact getLast?_append_two _ _ _
  · intro env c0 listing cfg k hfail hq
    by_cases h : (parse_config cfg).1 = []
    · rw [h] at hq
      simp [resolvePhase] at hq
    · have hqf : k ∈ ((parse_config cfg).1.take MAX_LOOP_ITERATIONS).filterMap
          (queueSel env listing.toFinset) := by
        rw [resolvePhase, resolveFold_queue, List.nil_append] at hq
        exact hq
      obtain ⟨e, _, hsel⟩ := List.mem_filterMap.mp hqf
      have hnotex : k ∉ listing.toFinset := (queueSel_some env listing.toFinset hsel).2.2.1
      constructor
      · rw [runSync_nonempty env c0 listing cfg h]
        show k ∉ (delSt env (recoverMaybe env c0).1 (recoverMaybe env c0).2.1
          (recoverMaybe env c0).2.2 (parse_config cfg).1 listing).live
        intro hlive
        rw [delSt_eq] at hlive
        have hlive2 := delFold_live_sub env (listing.take MAX_LOOP_ITERATIONS) _ hlive
        rw [addSt_eq] at hlive2
        rcases addFold_live_true env listing.toFinset _ _ k hlive2 with h1 | h1
        · exact hnotex h1
        · refine addFold_fail_no_true env listing.toFinset hfail _ _ ?_ h1
          exact recoverMaybe_fail_no_true env c0 hfail
      · intro r hr hport
        constructor
        · rw [runSync_nonempty env c0 listing cfg h]
          show r ∈ (delSt env (recoverMaybe env c0).1 (recoverMaybe env c0).2.1
            (recoverMaybe env c0).2.2 (parse_config cfg).1 listing).desired
          rw [delSt_eq, delFold_desired, addSt_eq]
          refine addFold_fail_desired env listing.toFinset hfail _ _ ?_
            (Finset.mem_filter.mpr ⟨List.mem_toFinset.mpr hr, hport⟩)
          rw [resolveQueue_take]
          exact hq
        · intro ok
          rw [runSync_nonempty env c0 listing cfg h]
          show FwEvent.del r ok ∉ (delSt env (recoverMaybe env c0).1
            (recoverMaybe env c0).2.1 (recoverMaybe env c0).2.2 (parse_config cfg).1
            listing).trace
          rw [delSt_eq]
          refine delFold_no_del env _ _ ?_ ?_ ok
          · rw [addSt_eq]
            refine addFold_fail_desired env listing.toFinset hfail _ _ ?_
              (Finset.mem_filter.mpr ⟨List.mem_toFinset.mpr hr, hport⟩)
            rw [resolveQueue_take]
            exact hq
          · intro ok'
            exact no_del_of_all_adds
              (addSt_trace_adds env (recoverMaybe env c0).1 (recoverMaybe env c0).2.1
                (recoverMaybe env c0).2.2 (parse_config cfg).1 listing
                (recoverMaybe_trace_adds env c0)) r ok'

/-- Witness for claim C3 at concrete inputs: the count bound, the idle
state after a doubly-failed add, and the key's absence from the final live
set. -/
theorem add_retry_bound_and_fail_safe_witness :
    (countAdds ((addPhase envAllFail ∅ s0W [key5_22]).trace) key5_22 ≤
        countAdds s0W.trace key5_22 + 2 * [key5_22].count key5_22) ∧
      (addStep envAllFail ∅ s0W key5_22).cache.state = CacheState.Idle ∧
        key5_22 ∉ (runSync envAllFail Cache.new [key6_22] cfgH22).live :=
  ⟨add_retry_bound_and_fail_safe.1 envAllFail ∅ s0W [key5_22] key5_22,
    (add_retry_bound_and_fail_safe.2.1 envAllFail ∅ s0W key5_22 (fun _ => rfl)).1,
    (add_retry_bound_and_fail_safe.2.2 envAllFail Cache.new [key6_22] cfgH22 key5_22
      (fun _ => rfl) (by decide)).1⟩

/-- Claim C9 (amended): config parsing keeps at most 100 entries and reads
at most the first 200 lines, warning whenever more than 200 lines exist;
the live-listing parser keeps at most 100 rule keys and reads at most the
first 200 lines, but its warning can be pre-empted by the silent 100-rule
cap: past 200 lines it either warned or had already truncated at exactly
100 rules. -/
theorem bounded_parsing (lines : List (List Char)) :
    (parse_config lines).1.length ≤ MAX_ENTRIES ∧
      (parse_config lines).1 = (parse_config (lines.take MAX_LOOP_ITERATIONS)).1 ∧
        (lines.length > MAX_LOOP_ITERATIONS → (parse_config lines).2 ≠ []) ∧
          (get_existing_rules lines).1.length ≤ MAX_RULES ∧
            (get_existing_rules lines).1 =
                (get_existing_rules (lines.take MAX_LOOP_ITERATIONS)).1 ∧
              (lines.length > MAX_LOOP_ITERATIONS →
                (get_existing_rules lines).2 ≠ [] ∨
                  (get_existing_rules lines).1.length = MAX_RULES) := by
  refine ⟨parse_config_len lines, ?_, ?_, get_existing_rules_len lines, ?_, ?_⟩
  · have h := parseConfigGo_take lines 0 []
    rw [Nat.sub_zero] at h
    exact h
  · intro h
    exact parseConfigGo_warn lines 0 [] (by omega) (by omega)
  · have h := getRulesGo_take lines 0 []
    rw [Nat.sub_zero] at h
    exact h
  · intro h
    exact getRulesGo_warn lines 0 [] (by omega) (by omega) (by simp [MAX_RULES])

set_option maxRecDepth 100000 in
/-- Counterexample to claim C9 as stated: a listing of 101 distinct
parseable tagged rules is truncated to 100 kept keys — the 101st key is
dropped — and the warning list is empty: this truncation is silent. -/
theorem rule_cap_truncates_silently :
    bigListing.length = 101 ∧ (get_existing_rules bigListing).1.length = 100 ∧
      (get_existing_rules bigListing).2 = [] ∧
        scanRuleLine (mkRuleLine 100) = some keyLine100 ∧
          keyLine100 ∉ (get_existing_rules bigListing).1 := by
  refine ⟨by decide, ?_, ?_, by decide, ?_⟩ <;> decide

set_option maxRecDepth 100000 in
/-- Witness for the amended bounded-parsing claim: at 201 blank lines the
config parser warns, and the listing parser warns or is rule-capped. -/
theorem bounded_parsing_witness :
    (parse_config emptyLines201).2 ≠ [] ∧
      ((get_existing_rules emptyLines201).2 ≠ [] ∨
        (get_existing_rules emptyLines201).1.length = MAX_RULES) :=
  ⟨(bounded_parsing emptyLines201).2.2.1 (by decide),
    (bounded_parsing emptyLines201).2.2.2.2.2 (by decide)⟩

theorem recoverMaybe_of_idle (env : Env) (c : Cache) (h : c.state = CacheState.Idle) :
    recoverMaybe env c = (c, [], []) := by
  rw [recoverMaybe, if_neg (not_not_intro h)]

theorem runSync_cacheEnd_idle (env : Env) (c0 : Cache) (listing : List RuleKey)
    (cfg : List (List Char)) :
    (runSync env c0 listing cfg).cacheEnd.state = CacheState.Idle := by
  by_cases h : (parse_config cfg).1 = []
  · rw [runSync_empty env c0 listing cfg h]
    exact recoverMaybe_idle env c0
  · rw [runSync_nonempty env c0 listing cfg h]
    rfl

set_option maxRecDepth 40000 in
/-- Counterexample to claim C5 as stated: with one entry, an empty initial
firewall and an environment in which every `addRule` invocation fails, the
first run completes all phases and leaves an empty live set and an idle
state; the second run, executed with the same config, the same resolution
and exactly that live set and persisted state, still issues two `addRule`
calls. -/
theorem second_run_not_quiescent_cex :
    out1F.live = ∅ ∧ out1F.cacheEnd.state = CacheState.Idle ∧
      out2F.trace = [FwEvent.add key5_22 false, FwEvent.add key5_22 false] := by
  refine ⟨by decide, by decide, by decide⟩

/-- Claim C5 (amended): when every firewall mutation succeeds, a second run
with the same config, the same resolution environment, the live rule set
left by the first run and the persisted state the first run saved issues
no firewall call at all. The first run's listing is bounded by the loop
ceiling, as every real listing (capped at 100 rules) is. -/
theorem second_run_quiescent (env : Env) (c0 : Cache) (listing1 listing2 : List RuleKey)
    (cfg : List (List Char)) (hAdd : ∀ k n, env.addOk k n = true)
    (hDel : ∀ k, env.delOk k = true) (hlen : listing1.length ≤ MAX_LOOP_ITERATIONS)
    (hlst : listing2.toFinset = (runSync env c0 listing1 cfg).live) :
    (runSync env (runSync env c0 listing1 cfg).cacheEnd listing2 cfg).trace = [] := by
  have hcE : (runSync env c0 listing1 cfg).cacheEnd.state = CacheState.Idle :=
    runSync_cacheEnd_idle env c0 listing1 cfg
  have hrc : recoverMaybe env (runSync env c0 listing1 cfg).cacheEnd =
      ((runSync env c0 listing1 cfg).cacheEnd, [], []) :=
    recoverMaybe_of_idle env _ hcE
  by_cases hemp : (parse_config cfg).1 = []
  · rw [runSync_empty env _ listing2 cfg hemp, hrc]
  · have htakeE : (parse_config cfg).1.take MAX_LOOP_ITERATIONS = (parse_config cfg).1 :=
      take_of_len_le _ _ (le_trans (parse_config_len cfg) (by decide))
    have htakeL1 : listing1.take MAX_LOOP_ITERATIONS = listing1 := take_of_len_le _ _ hlen
    have hq1 : (resolvePhase env listing1.toFinset (parse_config cfg).1).2 =
        (parse_config cfg).1.filterMap (queueSel env listing1.toFinset) := by
      rw [resolvePhase, resolveFold_queue, List.nil_append, htakeE]
    have hlive1 : ∀ k, k ∈ (runSync env c0 listing1 cfg).live ↔
        ((k ∈ listing1.toFinset ∨
            k ∈ (resolvePhase env listing1.toFinset (parse_config cfg).1).2.toFinset) ∧
          (k ∈ (resolvePhase env listing1.toFinset (parse_config cfg).1).1 ∨
            k ∉ listing1)) := by
      intro k
      rw [runSync_nonempty env c0 listing1 cfg hemp]
      show k ∈ (delSt env (recoverMaybe env c0).1 (recoverMaybe env c0).2.1
        (recoverMaybe env c0).2.2 (parse_config cfg).1 listing1).live ↔ _
      rw [delSt_eq, delFold_live_iff env hDel]
      obtain ⟨hd1, hl1, _⟩ := addFold_success env listing1.toFinset hAdd
        ((resolvePhase env listing1.toFinset (parse_config cfg).1).2.take MAX_LOOP_ITERATIONS)
        (resolveSt env (recoverMaybe env c0).1 (recoverMaybe env c0).2.1
          (recoverMaybe env c0).2.2 (parse_config cfg).1 listing1)
      rw [addSt_eq, hl1, hd1, resolveQueue_take, htakeL1]
      simp only [resolveSt, Finset.mem_union]
    have hsucc_des : ∀ (ex : Finset RuleKey) (e : DdnsEntry) (ip : Ipv4),
        e ∈ (parse_config cfg).1 → env.resolve e.hostname = some ip →
          (ip, e.port) ∈ (resolvePhase env ex (parse_config cfg).1).1 := by
      intro ex e ip he hres
      rw [resolvePhase]
      refine resolveFold_success env ex _ _ e ip ?_ hres
      rw [htakeE]
      exact he
    have hdes2 : ∀ k, k ∈ listing2 →
        k ∈ (resolvePhase env listing2.toFinset (parse_config cfg).1).1 := by
      intro k hk2
      have hk1 : k ∈ (runSync env c0 listing1 cfg).live := by
        rw [← hlst]
        exact List.mem_toFinset.mpr hk2
      rcases (hlive1 k).mp hk1 with ⟨hA, hB⟩
      rcases hA with hA | hA
      · have hk1l : k ∈ listing1 := List.mem_toFinset.mp hA
        rcases hB with hB | hB
        · rw [resolvePhase] at hB
          rcases resolveFold_desired_src env listing1.toFinset _ _ k hB with
            h0 | ⟨e, he, hcase⟩
          · simp at h0
          · have he' : e ∈ (parse_config cfg).1 := by
              rw [← htakeE]
              exact he
            rcases hcase with ⟨hres, hport⟩ | ⟨hres, _, hport⟩
            · have h2 := hsucc_des listing2.toFinset e k.1 he' hres
              have hkk : k = (k.1, e.port) := by
                rw [hport]
              rw [hkk]
              exact h2
            · rw [resolvePhase]
              refine resolveFold_fallback env listing2.toFinset _ _ e k ?_ hres
                (List.mem_toFinset.mpr hk2) hport.symm
              exact he
        · exact absurd hk1l hB
      · rw [hq1] at hA
        obtain ⟨e, he, hsel⟩ := List.mem_filterMap.mp (List.mem_toFinset.mp hA)
        obtain ⟨hres, hport, _, _⟩ := queueSel_some env _ hsel
        have h2 := hsucc_des listing2.toFinset e k.1 he hres
        have hkk : k = (k.1, e.port) := by
          rw [hport]
        rw [hkk]
        exact h2
    have hq2 : (resolvePhase env listing2.toFinset (parse_config cfg).1).2 = [] := by
      rw [resolvePhase, resolveFold_queue, List.nil_append, htakeE]
      rw [List.filterMap_eq_nil_iff]
      intro e he
      cases hres : env.resolve e.hostname with
      | none => simp [queueSel, hres]
      | some ip =>
        by_cases hex : env.ruleExists (ip, e.port) = true
        · simp [queueSel, hres, hex]
        · have hkmem : (ip, e.port) ∈ listing2.toFinset := by
            rw [hlst]
            apply (hlive1 (ip, e.port)).mpr
            by_cases hex1 : (ip, e.port) ∈ listing1.toFinset
            · exact ⟨Or.inl hex1, Or.inl (hsucc_des listing1.toFinset e ip he hres)⟩
            · have hq1m : (ip, e.port) ∈
                  (parse_config cfg).1.filterMap (queueSel env listing1.toFinset) := by
                refine List.mem_filterMap.mpr ⟨e, he, ?_⟩
                rw [Bool.not_eq_true] at hex
                simp only [queueSel, hres]
                rw [if_neg hex1, hex, if_neg Bool.false_ne_true]
              refine ⟨Or.inr ?_, Or.inl (hsucc_des listing1.toFinset e ip he hres)⟩
              rw [hq1]
              exact List.mem_toFinset.mpr hq1m
          simp only [queueSel, hres]
          rw [if_pos hkmem]
    rw [runSync_nonempty env _ listing2 cfg hemp]
    show (delSt env (recoverMaybe env (runSync env c0 listing1 cfg).cacheEnd).1
      (recoverMaybe env (runSync env c0 listing1 cfg).cacheEnd).2.1
      (recoverMaybe env (runSync env c0 listing1 cfg).cacheEnd).2.2
      (parse_config cfg).1 listing2).trace = []
    rw [hrc]
    rw [delSt_eq]
    have hskip : ∀ k ∈ listing2.take MAX_LOOP_ITERATIONS,
        k ∈ (addSt env (runSync env c0 listing1 cfg).cacheEnd [] [] (parse_config cfg).1
          listing2).desired := by
      intro k hk
      rw [addSt_eq, hq2, List.take_nil, List.foldl_nil]
      exact hdes2 k ((List.take_sublist _ _).subset hk)
    rw [delFold_skip_all env _ _ hskip]
    rw [addSt_eq, hq2, List.take_nil, List.foldl_nil]
    rfl

set_option maxRecDepth 40000 in
/-- Witness for the amended idempotence claim: after a fully successful
first run (one add, one delete), a second run over the resulting live set
and persisted state makes no firewall call. -/
theorem second_run_quiescent_witness :
    (runSync envAllOk (runSync envAllOk Cache.new [key6_80] cfgH22).cacheEnd
      [key5_22] cfgH22).trace = [] :=
  second_run_quiescent envAllOk Cache.new [key6_80] [key5_22] cfgH22
    (fun _ _ => rfl) (fun _ => rfl) (by decide) (by decide)
